import Mathlib

/-!
# glab `pkg/api/pipeline.go`: job ordering, job selection, pagination, dispatch

A shallow embedding of the parts of `pkg/api/pipeline.go` that carry logic:

* `JobSort` (`Len`, `Swap`, `Less`) and the call `sort.Sort(JobSort{Jobs: jobsList})`;
* the page loop of `PipelineJobsWithSha`;
* the job selection loop of `PipelineJobTraceWithSha`;
* `PlayOrRetryJobs`, `GetPipelines`, `GetPipelineJobs`, `GetPipelineFromBranch`.

`sort.Sort` belongs to the Go standard library, not to glab.  It is embedded as the
pattern-defeating quicksort of `sort/zsortinterface.go`, the implementation of
`sort.Sort` since Go 1.19, function by function, over the three methods of `JobSort`.

Conventions of the embedding:

* a Go slice is a list and `data.Swap` returns the new slice (state passing);
* slice indices are natural numbers: every subtraction on an index in the Go code is
  guarded by a test that keeps it non-negative on the paths that reach it;
* a run-time panic (index out of range, nil `CreatedAt`) and a loop that exhausts the
  number of passes given to it are explicit outcomes, so that "the call returns" is a
  statement to prove;
* every function that talks to the remote API also returns the list of requests it
  sent, in order.
-/


namespace Glab

/-! ## Outcomes of a run -/

/-- Result of running a piece of Go code: a value, a run-time panic (index out of
range, nil dereference), or a loop that used up the iteration budget given to it. -/
inductive Outcome (α : Type) where
  | ok (v : α)
  | panic
  | outOfFuel
  deriving DecidableEq

/-- Sequencing of outcomes: a panic or an exhausted budget stops the run. -/
def Outcome.bind {α β : Type} (x : Outcome α) (f : α → Outcome β) : Outcome β :=
  match x with
  | .ok v => f v
  | .panic => .panic
  | .outOfFuel => .outOfFuel

/-! ## Data model -/

/-- An instant of `time.Time`, counted in nanoseconds. -/
abbrev Time := Int

/-- The method `time.Time.Before`: strictly earlier instant. -/
def Time.Before (t u : Time) : Bool := decide (t < u)

/-- The fields of `gitlab.Job` the code reads.  `CreatedAt` is a `*time.Time`
and may be nil. -/
structure Job where
  ID : Int
  Name : String
  Status : String
  CreatedAt : Option Time
  deriving DecidableEq

/-- The type `JobSort`: a wrapper around the slice of jobs. -/
structure JobSort where
  Jobs : List Job
  deriving DecidableEq

/-- The method `JobSort.Len`. -/
def JobSort.Len (s : JobSort) : Nat := s.Jobs.length

/-- The method `JobSort.Swap`: exchanges the entries `i` and `j`; an index out of
range panics. -/
def JobSort.Swap (s : JobSort) (i j : Nat) : Outcome JobSort :=
  match s.Jobs[i]?, s.Jobs[j]? with
  | some x, some y => .ok ⟨(s.Jobs.set i y).set j x⟩
  | _, _ => .panic

/-- The method `JobSort.Less`: `(*s.Jobs[i].CreatedAt).Before(*s.Jobs[j].CreatedAt)`;
an index out of range or a nil `CreatedAt` panics. -/
def JobSort.Less (s : JobSort) (i j : Nat) : Outcome Bool :=
  match s.Jobs[i]?, s.Jobs[j]? with
  | some x, some y =>
    match x.CreatedAt, y.CreatedAt with
    | some t, some u => .ok (t.Before u)
    | _, _ => .panic
  | _, _ => .panic

/-! ## `sort.Sort` (Go standard library, `sort/zsortinterface.go`) -/

/-- Inner loop of `insertionSort`:
`for j := i; j > a && data.Less(j, j-1); j-- { data.Swap(j, j-1) }`. -/
def insertionSortInner (a : Nat) : Nat → JobSort → Outcome JobSort
  | 0, data => .ok data
  | j + 1, data =>
    if j + 1 > a then
      (data.Less (j + 1) j).bind fun c =>
        if c then (data.Swap (j + 1) j).bind fun d => insertionSortInner a j d
        else .ok data
    else .ok data

/-- Outer loop of `insertionSort`: `for i := a + 1; i < b; i++`. -/
def insertionSortOuter (a b : Nat) : Nat → Nat → JobSort → Outcome JobSort
  | 0, i, data => if i < b then .outOfFuel else .ok data
  | fuel + 1, i, data =>
    if i < b then
      (insertionSortInner a i data).bind fun d => insertionSortOuter a b fuel (i + 1) d
    else .ok data

/-- The function `insertionSort`: sorts `data[a:b]` using insertion sort. -/
def insertionSort (data : JobSort) (a b : Nat) : Outcome JobSort :=
  insertionSortOuter a b (b - a) (a + 1) data

/-- Loop of `siftDown`, started at `root`. -/
def siftDownLoop (hi first : Nat) : Nat → Nat → JobSort → Outcome JobSort
  | 0, root, data => if 2 * root + 1 ≥ hi then .ok data else .outOfFuel
  | fuel + 1, root, data =>
    if 2 * root + 1 ≥ hi then .ok data
    else
      (if 2 * root + 1 + 1 < hi then data.Less (first + (2 * root + 1)) (first + (2 * root + 1) + 1)
        else .ok false).bind fun c =>
      let child := if c then 2 * root + 1 + 1 else 2 * root + 1
      (data.Less (first + root) (first + child)).bind fun c2 =>
        if !c2 then .ok data
        else (data.Swap (first + root) (first + child)).bind fun d =>
          siftDownLoop hi first fuel child d

/-- The function `siftDown`: implements the heap property on `data[lo:hi]`, with
`first` the offset of the root of the heap. -/
def siftDown (data : JobSort) (lo hi first : Nat) : Outcome JobSort :=
  siftDownLoop hi first hi lo data

/-- First loop of `heapSort`: `for i := (hi - 1) / 2; i >= 0; i--`; the argument
counts the values of `i` still to visit, the next one being its predecessor. -/
def heapSortBuild (hi first : Nat) : Nat → JobSort → Outcome JobSort
  | 0, data => .ok data
  | i + 1, data => (siftDown data i hi first).bind fun d => heapSortBuild hi first i d

/-- Second loop of `heapSort`: `for i := hi - 1; i >= 0; i--`. -/
def heapSortPop (first : Nat) : Nat → JobSort → Outcome JobSort
  | 0, data => .ok data
  | i + 1, data =>
    (data.Swap first (first + i)).bind fun d =>
      (siftDown d 0 i first).bind fun e => heapSortPop first i e

/-- The function `heapSort`. -/
def heapSort (data : JobSort) (a b : Nat) : Outcome JobSort :=
  (heapSortBuild (b - a) a ((b - a - 1) / 2 + 1) data).bind fun d =>
    heapSortPop a (b - a) d

/-- The loop `for i <= j && data.Less(i, a) { i++ }` of `partition`. -/
def partitionSkipLess (data : JobSort) (a j : Nat) : Nat → Nat → Outcome Nat
  | 0, i =>
    if i ≤ j then (data.Less i a).bind fun c => if c then .outOfFuel else .ok i
    else .ok i
  | fuel + 1, i =>
    if i ≤ j then
      (data.Less i a).bind fun c =>
        if c then partitionSkipLess data a j fuel (i + 1) else .ok i
    else .ok i

/-- The loop `for i <= j && !data.Less(j, a) { j-- }` of `partition`. -/
def partitionSkipGreaterEq (data : JobSort) (a i : Nat) : Nat → Nat → Outcome Nat
  | 0, j =>
    if i ≤ j then (data.Less j a).bind fun c => if !c then .outOfFuel else .ok j
    else .ok j
  | fuel + 1, j =>
    if i ≤ j then
      (data.Less j a).bind fun c =>
        if !c then partitionSkipGreaterEq data a i fuel (j - 1) else .ok j
    else .ok j

/-- The unbounded `for` loop of `partition`, entered with the cursors `i` and `j`;
it returns the slice and the final `j`. -/
def partitionLoop (a : Nat) : Nat → JobSort → Nat → Nat → Outcome (JobSort × Nat)
  | 0, _, _, _ => .outOfFuel
  | fuel + 1, data, i, j =>
    (partitionSkipLess data a j (j + 1 - i) i).bind fun i1 =>
    (partitionSkipGreaterEq data a i1 (j + 1 - i1) j).bind fun j1 =>
      if i1 > j1 then .ok (data, j1)
      else (data.Swap i1 j1).bind fun d => partitionLoop a fuel d (i1 + 1) (j1 - 1)

/-- The function `partition`: one quicksort partition around `data[pivot]`; returns
the slice, the new position of the pivot and whether the slice was already
partitioned. -/
def partition (data : JobSort) (a b pivot : Nat) : Outcome (JobSort × Nat × Bool) :=
  (data.Swap a pivot).bind fun d0 =>
  (partitionSkipLess d0 a (b - 1) (b - 1 + 1 - (a + 1)) (a + 1)).bind fun i =>
  (partitionSkipGreaterEq d0 a i (b - 1 + 1 - i) (b - 1)).bind fun j =>
    if i > j then (d0.Swap j a).bind fun d1 => .ok (d1, j, true)
    else
      (d0.Swap i j).bind fun d1 =>
      (partitionLoop a (b - a) d1 (i + 1) (j - 1)).bind fun r =>
      (r.1.Swap r.2 a).bind fun d2 => .ok (d2, r.2, false)

/-- The loop `for i <= j && !data.Less(a, i) { i++ }` of `partitionEqual`. -/
def partitionEqualSkipEq (data : JobSort) (a j : Nat) : Nat → Nat → Outcome Nat
  | 0, i =>
    if i ≤ j then (data.Less a i).bind fun c => if !c then .outOfFuel else .ok i
    else .ok i
  | fuel + 1, i =>
    if i ≤ j then
      (data.Less a i).bind fun c =>
        if !c then partitionEqualSkipEq data a j fuel (i + 1) else .ok i
    else .ok i

/-- The loop `for i <= j && data.Less(a, j) { j-- }` of `partitionEqual`. -/
def partitionEqualSkipGreater (data : JobSort) (a i : Nat) : Nat → Nat → Outcome Nat
  | 0, j =>
    if i ≤ j then (data.Less a j).bind fun c => if c then .outOfFuel else .ok j
    else .ok j
  | fuel + 1, j =>
    if i ≤ j then
      (data.Less a j).bind fun c =>
        if c then partitionEqualSkipGreater data a i fuel (j - 1) else .ok j
    else .ok j

/-- The `for` loop of `partitionEqual`; it returns the slice and the final `i`. -/
def partitionEqualLoop (a : Nat) : Nat → JobSort → Nat → Nat → Outcome (JobSort × Nat)
  | 0, _, _, _ => .outOfFuel
  | fuel + 1, data, i, j =>
    (partitionEqualSkipEq data a j (j + 1 - i) i).bind fun i1 =>
    (partitionEqualSkipGreater data a i1 (j + 1 - i1) j).bind fun j1 =>
      if i1 > j1 then .ok (data, i1)
      else (data.Swap i1 j1).bind fun d => partitionEqualLoop a fuel d (i1 + 1) (j1 - 1)

/-- The function `partitionEqual`: partitions `data[a:b]` into the elements equal to
`data[pivot]` followed by the elements greater than it. -/
def partitionEqual (data : JobSort) (a b pivot : Nat) : Outcome (JobSort × Nat) :=
  (data.Swap a pivot).bind fun d0 => partitionEqualLoop a (b - a + 1) d0 (a + 1) (b - 1)

/-- The scan `for i < b && !data.Less(i, i-1) { i++ }` of `partialInsertionSort`. -/
def partialInsertionSortScan (data : JobSort) (b : Nat) : Nat → Nat → Outcome Nat
  | 0, i =>
    if i < b then (data.Less i (i - 1)).bind fun c => if !c then .outOfFuel else .ok i
    else .ok i
  | fuel + 1, i =>
    if i < b then
      (data.Less i (i - 1)).bind fun c =>
        if !c then partialInsertionSortScan data b fuel (i + 1) else .ok i
    else .ok i

/-- The loop `for j := i - 1; j >= 1; j-- { if !data.Less(j, j-1) { break }; data.Swap(j, j-1) }`
of `partialInsertionSort`, entered at `j`. -/
def partialInsertionSortShiftLeft : Nat → JobSort → Outcome JobSort
  | 0, data => .ok data
  | j + 1, data =>
    if j + 1 ≥ 1 then
      (data.Less (j + 1) j).bind fun c =>
        if !c then .ok data
        else (data.Swap (j + 1) j).bind fun d => partialInsertionSortShiftLeft j d
    else .ok data

/-- The loop `for j := i + 1; j < b; j++ { if !data.Less(j, j-1) { break }; data.Swap(j, j-1) }`
of `partialInsertionSort`, entered at `j`. -/
def partialInsertionSortShiftRight (b : Nat) : Nat → Nat → JobSort → Outcome JobSort
  | 0, j, data => if j < b then .outOfFuel else .ok data
  | fuel + 1, j, data =>
    if j < b then
      (data.Less j (j - 1)).bind fun c =>
        if !c then .ok data
        else (data.Swap j (j - 1)).bind fun d => partialInsertionSortShiftRight b fuel (j + 1) d
    else .ok data

/-- The loop `for j := 0; j < maxSteps; j++` of `partialInsertionSort`; the first
argument counts the steps left (`maxSteps - j`). -/
def partialInsertionSortSteps (a b : Nat) : Nat → JobSort → Nat → Outcome (JobSort × Bool)
  | 0, data, _ => .ok (data, false)
  | steps + 1, data, i =>
    (partialInsertionSortScan data b (b - i) i).bind fun i1 =>
      if i1 = b then .ok (data, true)
      else if b - a < 50 then .ok (data, false)
      else
        (data.Swap i1 (i1 - 1)).bind fun d1 =>
        (if i1 - a ≥ 2 then partialInsertionSortShiftLeft (i1 - 1) d1 else .ok d1).bind fun d2 =>
        (if b - i1 ≥ 2 then partialInsertionSortShiftRight b (b - (i1 + 1)) (i1 + 1) d2
          else .ok d2).bind fun d3 =>
        partialInsertionSortSteps a b steps d3 i1

/-- The function `partialInsertionSort`: partially sorts a slice, returns true if the
slice is sorted at the end (`maxSteps = 5`, `shortestShifting = 50`). -/
def partialInsertionSort (data : JobSort) (a b : Nat) : Outcome (JobSort × Bool) :=
  partialInsertionSortSteps a b 5 data (a + 1)

/-- The function `bits.Len`: the minimum number of bits needed to represent `x`. -/
def bitsLen (x : Nat) : Nat := if x = 0 then 0 else Nat.log2 x + 1

/-- The method `xorshift.Next` on a `uint64` state: three xor-shift steps, by 13, 7 and
17 bits (Go releases differ in the last two amounts; no theorem below depends on
them).  The new state is also the value returned. -/
def xorshiftNext (r : Nat) : Nat :=
  let r1 := r ^^^ ((r <<< 13) % 2 ^ 64)
  let r2 := r1 ^^^ (r1 >>> 7)
  r2 ^^^ ((r2 <<< 17) % 2 ^ 64)

/-- The function `nextPowerOfTwo`: `1 << bits.Len(length)`. -/
def nextPowerOfTwo (length : Nat) : Nat := 1 <<< bitsLen length

/-- The loop `for i := 0; i < 3; i++` of `breakPatterns`; the first argument counts the
iterations left (`3 - i`). -/
def breakPatternsLoop (a length modulus idx : Nat) : Nat → Nat → Nat → JobSort → Outcome JobSort
  | 0, _, _, data => .ok data
  | n + 1, i, random, data =>
    let random1 := xorshiftNext random
    let other := random1 &&& (modulus - 1)
    let other1 := if other ≥ length then other - length else other
    (data.Swap (idx - 1 + i) (a + other1)).bind fun d =>
      breakPatternsLoop a length modulus idx n (i + 1) random1 d

/-- The function `breakPatterns`: scatters some elements around in an attempt to break
patterns that might cause imbalanced partitions. -/
def breakPatterns (data : JobSort) (a b : Nat) : Outcome JobSort :=
  if b - a ≥ 8 then
    breakPatternsLoop a (b - a) (nextPowerOfTwo (b - a)) (a + (b - a) / 4 * 2 - 1) 3 0 (b - a) data
  else .ok data

/-- The type `sortedHint`. -/
inductive sortedHint where
  | unknownHint
  | increasingHint
  | decreasingHint
  deriving DecidableEq

/-- The function `order2`: returns `x, y` with `data[x] <= data[y]`, among `a, b` and
`b, a`, and the updated swap counter. -/
def order2 (data : JobSort) (a b swaps : Nat) : Outcome (Nat × Nat × Nat) :=
  (data.Less b a).bind fun c => if c then .ok (b, a, swaps + 1) else .ok (a, b, swaps)

/-- The function `median`: index of the median of `data[a]`, `data[b]`, `data[c]`, and
the updated swap counter. -/
def median (data : JobSort) (a b c swaps : Nat) : Outcome (Nat × Nat) :=
  (order2 data a b swaps).bind fun r1 =>
  (order2 data r1.2.1 c r1.2.2).bind fun r2 =>
  (order2 data r1.1 r2.1 r2.2.2).bind fun r3 => .ok (r3.2.1, r3.2.2)

/-- The function `medianAdjacent`: median of `data[a-1]`, `data[a]`, `data[a+1]`. -/
def medianAdjacent (data : JobSort) (a swaps : Nat) : Outcome (Nat × Nat) :=
  median data (a - 1) a (a + 1) swaps

/-- The function `choosePivot`: a static pivot below 8 elements, the median of three
below `shortestNinther = 50`, Tukey's ninther above; with `maxSwaps = 12`. -/
def choosePivot (data : JobSort) (a b : Nat) : Outcome (Nat × sortedHint) :=
  let l := b - a
  let i := a + l / 4 * 1
  let j := a + l / 4 * 2
  let k := a + l / 4 * 3
  (if l ≥ 8 then
    (if l ≥ 50 then
      (medianAdjacent data i 0).bind fun ri =>
      (medianAdjacent data j ri.2).bind fun rj =>
      (medianAdjacent data k rj.2).bind fun rk => .ok (ri.1, rj.1, rk.1, rk.2)
     else .ok (i, j, k, 0)).bind fun t =>
    median data t.1 t.2.1 t.2.2.1 t.2.2.2
   else .ok (j, 0)).bind fun r =>
  if r.2 = 0 then .ok (r.1, sortedHint.increasingHint)
  else if r.2 = 12 then .ok (r.1, sortedHint.decreasingHint)
  else .ok (r.1, sortedHint.unknownHint)

/-- Loop of `reverseRange`: `for i < j { data.Swap(i, j); i++; j-- }`. -/
def reverseRangeLoop : Nat → JobSort → Nat → Nat → Outcome JobSort
  | 0, data, i, j => if i < j then .outOfFuel else .ok data
  | fuel + 1, data, i, j =>
    if i < j then (data.Swap i j).bind fun d => reverseRangeLoop fuel d (i + 1) (j - 1)
    else .ok data

/-- The function `reverseRange`. -/
def reverseRange (data : JobSort) (a b : Nat) : Outcome JobSort :=
  reverseRangeLoop (b - a) data a (b - 1)

/-- The function `pdqsort`: sorts `data[a:b]`.  One unfolding is one pass of the Go
`for` loop; `wasBalanced` and `wasPartitioned` are its two local flags (both true on
entry), and the first argument bounds the passes and the recursion depth. -/
def pdqsort : Nat → JobSort → Nat → Nat → Nat → Bool → Bool → Outcome JobSort
  | 0, _, _, _, _, _, _ => .outOfFuel
  | fuel + 1, data, a, b, limit, wasBalanced, wasPartitioned =>
    if b - a ≤ 12 then insertionSort data a b
    else if limit = 0 then heapSort data a b
    else
      (if !wasBalanced then (breakPatterns data a b).bind fun d => .ok (d, limit - 1)
        else .ok (data, limit)).bind fun s1 =>
      (choosePivot s1.1 a b).bind fun ph =>
      (if ph.2 = sortedHint.decreasingHint then
          (reverseRange s1.1 a b).bind fun d =>
            .ok (d, (b - 1) - (ph.1 - a), sortedHint.increasingHint)
        else .ok (s1.1, ph.1, ph.2)).bind fun s2 =>
      (if wasBalanced && wasPartitioned && s2.2.2 = sortedHint.increasingHint then
          partialInsertionSort s2.1 a b
        else .ok (s2.1, false)).bind fun s3 =>
      if s3.2 then .ok s3.1
      else
        (if a > 0 then (s3.1.Less (a - 1) s2.2.1).bind fun c => .ok (!c)
          else .ok false).bind fun dup =>
        if dup then
          (partitionEqual s3.1 a b s2.2.1).bind fun pe =>
            pdqsort fuel pe.1 pe.2 b s1.2 wasBalanced wasPartitioned
        else
          (partition s3.1 a b s2.2.1).bind fun p =>
            if p.2.1 - a < b - p.2.1 then
              (pdqsort fuel p.1 a p.2.1 s1.2 true true).bind fun d =>
                pdqsort fuel d (p.2.1 + 1) b s1.2 (decide (p.2.1 - a ≥ (b - a) / 8)) p.2.2
            else
              (pdqsort fuel p.1 (p.2.1 + 1) b s1.2 true true).bind fun d =>
                pdqsort fuel d a p.2.1 s1.2 (decide (b - p.2.1 ≥ (b - a) / 8)) p.2.2

/-- The function `sort.Sort`: sorts `data` in ascending order as determined by `Less`. -/
def sort.Sort (data : JobSort) : Outcome JobSort :=
  if data.Len ≤ 1 then .ok data
  else pdqsort (data.Len + 1) data 0 data.Len (bitsLen data.Len) true true

/-! ## The remote API and the collaborators of `pipeline.go` -/

/-- A Go `error` value, identified by its message. -/
structure Error where
  msg : String
  deriving DecidableEq

/-- The function `errors.New`. -/
def errorsNew (text : String) : Error := ⟨text⟩

/-- An `io.Reader` over a job log, identified by the text it yields. -/
abbrev Reader := String

/-- The field of `gitlab.PipelineInfo` the code reads. -/
structure PipelineInfo where
  ID : Int
  deriving DecidableEq

/-- The fields of `gitlab.ListJobsOptions` (its embedded `ListOptions`) the code sets. -/
structure ListJobsOptions where
  Page : Int
  PerPage : Int
  deriving DecidableEq

/-- The fields of `gitlab.ListProjectPipelinesOptions` the code sets; `SortOrder` is
the Go field `Sort`.  An unset `*string` field is `none`. -/
structure ListProjectPipelinesOptions where
  Page : Int
  PerPage : Int
  Ref : Option String
  SHA : Option String
  SortOrder : Option String
  deriving DecidableEq

/-- The pagination fields of `gitlab.Response`. -/
structure Response where
  NextPage : Int
  CurrentPage : Int
  TotalPages : Int
  deriving DecidableEq

/-- The services of `*gitlab.Client` the code calls.  Each answers a request with a
value or an error; the `*gitlab.Response` is kept only where the code reads it. -/
structure Client where
  ListProjectPipelines : String → ListProjectPipelinesOptions → Except Error (List PipelineInfo)
  ListPipelineJobs : String → Int → ListJobsOptions → Except Error (List Job × Response)
  GetTraceFile : String → Int → Except Error Reader
  PlayJob : String → Int → Except Error Job
  RetryJob : String → Int → Except Error Job

/-- What lies outside `pipeline.go`: the default client `apiClient.Lab()`, the
function `git.CurrentBranch` and the constant `DefaultListLimit`. -/
structure Env where
  Lab : Client
  CurrentBranch : Except Error String
  DefaultListLimit : Int

/-- A request sent to the remote API, with its arguments. -/
inductive Request where
  | ListProjectPipelines (repo : String) (opts : ListProjectPipelinesOptions)
  | ListPipelineJobs (pid : String) (pipelineID : Int) (opts : ListJobsOptions)
  | GetTraceFile (pid : String) (jobID : Int)
  | PlayJob (repo : String) (jobID : Int)
  | RetryJob (repo : String) (jobID : Int)
  deriving DecidableEq

/-- The guard `if client == nil { client = apiClient.Lab() }`. -/
def orLab (env : Env) (client : Option Client) : Client :=
  match client with
  | some c => c
  | none => env.Lab

/-! ## `pipeline.go` -/

/-- The function `PlayPipelineJob`; returns the Go pair `(job, err)` and the requests
sent. -/
def PlayPipelineJob (env : Env) (client : Option Client) (pid : Int) (repo : String) :
    (Option Job × Option Error) × List Request :=
  match (orLab env client).PlayJob repo pid with
  | .error err => ((none, some err), [Request.PlayJob repo pid])
  | .ok pipe => ((some pipe, none), [Request.PlayJob repo pid])

/-- The function `RetryPipelineJob`. -/
def RetryPipelineJob (env : Env) (client : Option Client) (pid : Int) (repo : String) :
    (Option Job × Option Error) × List Request :=
  match (orLab env client).RetryJob repo pid with
  | .error err => ((none, some err), [Request.RetryJob repo pid])
  | .ok pipe => ((some pipe, none), [Request.RetryJob repo pid])

/-- The function `PlayOrRetryJobs`: the `switch status`. -/
def PlayOrRetryJobs (env : Env) (client : Option Client) (repo : String) (jobID : Int)
    (status : String) : (Option Job × Option Error) × List Request :=
  let client := some (orLab env client)
  if status = "pending" ∨ status = "running" then ((none, none), [])
  else if status = "manual" then
    match PlayPipelineJob env client jobID repo with
    | ((_, some err), tr) => ((none, some err), tr)
    | ((j, none), tr) => ((j, none), tr)
  else
    match RetryPipelineJob env client jobID repo with
    | ((_, some err), tr) => ((none, some err), tr)
    | ((j, none), tr) => ((j, none), tr)

/-- The function `GetPipelines`: fills in the default page size and lists the
pipelines. -/
def GetPipelines (env : Env) (client : Option Client) (l : ListProjectPipelinesOptions)
    (repo : String) : (List PipelineInfo × Option Error) × List Request :=
  let l1 := if l.PerPage = 0 then { l with PerPage := env.DefaultListLimit } else l
  match (orLab env client).ListProjectPipelines repo l1 with
  | .error err => (([], some err), [Request.ListProjectPipelines repo l1])
  | .ok pipes => ((pipes, none), [Request.ListProjectPipelines repo l1])

/-- The function `GetPipelineJobs`. -/
def GetPipelineJobs (env : Env) (client : Option Client) (pid : Int) (repo : String) :
    (List Job × Option Error) × List Request :=
  match (orLab env client).ListPipelineJobs repo pid ⟨0, 0⟩ with
  | .error err => (([], some err), [Request.ListPipelineJobs repo pid ⟨0, 0⟩])
  | .ok r => ((r.1, none), [Request.ListPipelineJobs repo pid ⟨0, 0⟩])

/-- The function `GetPipelineFromBranch`; indexing `pipes[0]` is guarded by the test
`len(pipes) == 0`. -/
def GetPipelineFromBranch (env : Env) (client : Option Client) (ref repo : String) :
    (List Job × Option Error) × List Request :=
  let client := some (orLab env client)
  match (if ref = "" then env.CurrentBranch else .ok ref) with
  | .error err => (([], some err), [])
  | .ok ref1 =>
    match GetPipelines env client ⟨1, 1, some ref1, none, some "desc"⟩ repo with
    | ((_, some err), tr) => (([], some err), tr)
    | (([], none), tr) =>
      (([], some (errorsNew ("No pipelines running or available on " ++ ref1 ++ "branch"))), tr)
    | ((pipeline :: _, none), tr) =>
      match GetPipelineJobs env client pipeline.ID repo with
      | ((_, some err), tr1) => (([], some err), tr ++ tr1)
      | ((jobs, none), tr1) => ((jobs, none), tr ++ tr1)

/-- The page loop `for { ... }` of `PipelineJobsWithSha`: the first argument bounds the
number of passes; `opts` and `jobsList` are the loop's variables, `tr` the requests
sent so far.  A failed request leaves the loop with the error. -/
def PipelineJobsWithShaLoop (client : Client) (pid : String) (target : Int) :
    Nat → ListJobsOptions → List Job → List Request →
      Outcome (Except Error (List Job) × List Request)
  | 0, _, _, _ => .outOfFuel
  | fuel + 1, opts, jobsList, tr =>
    match client.ListPipelineJobs pid target opts with
    | .error err => .ok (.error err, tr ++ [Request.ListPipelineJobs pid target opts])
    | .ok (jobs, resp) =>
      if resp.CurrentPage = resp.TotalPages then
        .ok (.ok (jobsList ++ jobs), tr ++ [Request.ListPipelineJobs pid target opts])
      else
        PipelineJobsWithShaLoop client pid target fuel { opts with Page := resp.NextPage }
          (jobsList ++ jobs) (tr ++ [Request.ListPipelineJobs pid target opts])

/-- The function `PipelineJobsWithSha`; `fuel` bounds the passes of its page loop. -/
def PipelineJobsWithSha (fuel : Nat) (env : Env) (client : Option Client) (pid sha : String) :
    Outcome ((List Job × Option Error) × List Request) :=
  let client := orLab env client
  match GetPipelines env (some client) ⟨0, 0, none, some sha, none⟩ pid with
  | ((_, some err), tr) => .ok (([], some err), tr)
  | (([], none), tr) => .ok (([], none), tr)
  | ((p :: _, none), tr) =>
    (PipelineJobsWithShaLoop client pid p.ID fuel ⟨0, 500⟩ [] tr).bind fun r =>
      match r with
      | (.error err, tr1) => .ok (([], some err), tr1)
      | (.ok jobsList, tr1) =>
        (sort.Sort ⟨jobsList⟩).bind fun s => .ok ((s.Jobs, none), tr1)

/-- The variables `job`, `lastRunning`, `firstPending` of `PipelineJobTraceWithSha`. -/
structure Selection where
  job : Option Job
  lastRunning : Option Job
  firstPending : Option Job
  deriving DecidableEq

/-- One pass of the loop `for _, j := range jobs` of `PipelineJobTraceWithSha`. -/
def selectStep (name : String) (st : Selection) (j : Job) : Selection :=
  let st1 := if j.Status = "running" then { st with lastRunning := some j } else st
  let st2 := if j.Status = "pending" ∧ st1.firstPending = none then
    { st1 with firstPending := some j } else st1
  if j.Name = name then { st2 with job := some j } else st2

/-- Lines 215 to 241 of `PipelineJobTraceWithSha`: the loop over the jobs and the three
`if job == nil` fallbacks; `jobs[len(jobs)-1]` panics on an empty slice. -/
def selectJob (jobs : List Job) (name : String) : Outcome Job :=
  let st := jobs.foldl (selectStep name) ⟨none, none, none⟩
  let job := st.job
  let job := if job = none then st.lastRunning else job
  let job := if job = none then st.firstPending else job
  match job with
  | some j => .ok j
  | none =>
    match jobs[jobs.length - 1]? with
    | some j => .ok j
    | none => .panic

/-- The function `PipelineJobTraceWithSha`; returns the Go triple `(reader, job, err)`
and the requests sent. -/
def PipelineJobTraceWithSha (fuel : Nat) (env : Env) (client : Option Client)
    (pid sha name : String) :
    Outcome ((Option Reader × Option Job × Option Error) × List Request) :=
  let client := orLab env client
  (PipelineJobsWithSha fuel env (some client) pid sha).bind fun r =>
    if r.1.1.length = 0 ∨ r.1.2 ≠ none then .ok ((none, none, r.1.2), r.2)
    else
      (selectJob r.1.1 name).bind fun job =>
        match client.GetTraceFile pid job.ID with
        | .error err => .ok ((none, some job, some err), r.2 ++ [Request.GetTraceFile pid job.ID])
        | .ok rd => .ok ((some rd, some job, none), r.2 ++ [Request.GetTraceFile pid job.ID])

/-! ## Predicates of the specification -/

/-- Every job of the slice carries a creation timestamp. -/
def Timed (s : JobSort) : Prop := ∀ j ∈ s.Jobs, j.CreatedAt ≠ none

/-- Creation instant of the entry `i` of the slice. -/
def ts (s : JobSort) (i : Nat) : Time :=
  match s.Jobs[i]? with
  | some j => j.CreatedAt.getD 0
  | none => 0

/-- The slice with the entries `i` and `j` exchanged. -/
def swapped (l : List Job) (i j : Nat) : List Job :=
  match l[i]?, l[j]? with
  | some x, some y => (l.set i y).set j x
  | _, _ => l

/-- The slice `s'` is the slice `s` with the entries of `[a, b)` rearranged among
themselves: the same jobs overall, every entry outside `[a, b)` in place, every entry
inside taken from inside. -/
def Rearranged (a b : Nat) (s s' : JobSort) : Prop :=
  s'.Jobs.Perm s.Jobs ∧
  (∀ k, k < a ∨ b ≤ k → s'.Jobs[k]? = s.Jobs[k]?) ∧
  (∀ k, a ≤ k → k < b → ∃ m, a ≤ m ∧ m < b ∧ s'.Jobs[k]? = s.Jobs[m]?)

/-- The entries of `[a, b)` are in non-decreasing order of creation time. -/
def SortedOn (s : JobSort) (a b : Nat) : Prop :=
  ∀ i j, a ≤ i → i ≤ j → j < b → ts s i ≤ ts s j

/-- The jobs sharing a creation instant keep their relative order from `s` to `s'`. -/
def SameTies (s s' : JobSort) : Prop :=
  ∀ t : Time, s'.Jobs.filter (fun j => decide (j.CreatedAt = some t)) =
    s.Jobs.filter (fun j => decide (j.CreatedAt = some t))

/-- The entry before `a`, when there is one, is not after any entry of `[a, b)`. -/
def LowerBounded (s : JobSort) (a b : Nat) : Prop :=
  a = 0 ∨ ∀ k, a ≤ k → k < b → ts s (a - 1) ≤ ts s k

/-- Heap property of the nodes `lo ..` of the heap stored at `first`, of size `hi`: no
child is after its parent. -/
def HeapFrom (s : JobSort) (first lo hi : Nat) : Prop :=
  ∀ r c, lo ≤ r → (c = 2 * r + 1 ∨ c = 2 * r + 2) → c < hi →
    ts s (first + c) ≤ ts s (first + r)

/-! ## A paginating transport, for the scenarios of the specification -/

/-- The page a request for `page` is served: page 1 when the request names no page
(`Page = 0`). -/
def servedPage (page : Int) : Nat := if page ≤ 0 then 1 else page.toNat

/-- A transport over a fixed project: it lists the pipelines `pipes`, serves the jobs
of a pipeline in the pages `pages` with `CurrentPage` the page served, `TotalPages`
the number of pages and `NextPage` the following page while there is one and 0
otherwise, and answers every other request with a fixed value. -/
def stubClient (pipes : List PipelineInfo) (pages : List (List Job)) : Client where
  ListProjectPipelines := fun _ _ => .ok pipes
  ListPipelineJobs := fun _ _ opts =>
    .ok (pages.getD (servedPage opts.Page - 1) [],
      ⟨if servedPage opts.Page < pages.length then (servedPage opts.Page : Int) + 1 else 0,
        servedPage opts.Page, pages.length⟩)
  GetTraceFile := fun _ _ => .ok "log"
  PlayJob := fun _ jobID => .ok ⟨jobID, "job", "pending", some 0⟩
  RetryJob := fun _ jobID => .ok ⟨jobID + 1, "job", "pending", some 0⟩

/-- An environment whose default client is `c`, on the branch "main", with a default
page size of 30. -/
def stubEnv (c : Client) : Env := ⟨c, .ok "main", 30⟩

/-- A page of `size` jobs, numbered from `first`, created one after the other. -/
def stubPage (first size : Nat) : List Job :=
  (List.range size).map fun i => ⟨(first + i : Nat), "job", "success", some ((first + i : Nat) : Int)⟩

/-- The page number the page loop of `PipelineJobsWithSha` sends for the page of index
`k` (from 0): none for the first page, `k + 1` afterwards. -/
def pageParam (k : Nat) : Int := if k = 0 then 0 else (k : Int) + 1

/-- The requests the page loop sends for the pages of index `k`, ..., `k + n - 1`. -/
def pageRequests (pid : String) (target : Int) (k n : Nat) : List Request :=
  (List.range' k n).map fun i => Request.ListPipelineJobs pid target ⟨pageParam i, 500⟩

/-- Thirteen jobs in the order received: the jobs 0 to 11 share the creation instant 1,
the job 12 was created at the instant 0. -/
def tiedJobs : List Job :=
  [⟨0, "j", "success", some 1⟩, ⟨1, "j", "success", some 1⟩, ⟨2, "j", "success", some 1⟩,
   ⟨3, "j", "success", some 1⟩, ⟨4, "j", "success", some 1⟩, ⟨5, "j", "success", some 1⟩,
   ⟨6, "j", "success", some 1⟩, ⟨7, "j", "success", some 1⟩, ⟨8, "j", "success", some 1⟩,
   ⟨9, "j", "success", some 1⟩, ⟨10, "j", "success", some 1⟩, ⟨11, "j", "success", some 1⟩,
   ⟨12, "j", "success", some 0⟩]

/-! # Theorems -/

/-! ## Basic facts on outcomes, `Less` and `Swap` -/

@[simp] theorem Outcome.bind_ok {α β : Type} (v : α) (f : α → Outcome β) :
    (Outcome.ok v).bind f = f v := rfl

@[simp] theorem Outcome.bind_panic {α β : Type} (f : α → Outcome β) :
    (Outcome.panic : Outcome α).bind f = .panic := rfl

@[simp] theorem Outcome.bind_outOfFuel {α β : Type} (f : α → Outcome β) :
    (Outcome.outOfFuel : Outcome α).bind f = .outOfFuel := rfl

theorem Less_eq {s : JobSort} (ht : Timed s) {i j : Nat} (hi : i < s.Jobs.length)
    (hj : j < s.Jobs.length) : s.Less i j = .ok (decide (ts s i < ts s j)) := by
  unfold JobSort.Less ts
  rw [List.getElem?_eq_getElem hi, List.getElem?_eq_getElem hj]
  have h1 := ht _ (List.getElem_mem hi)
  have h2 := ht _ (List.getElem_mem hj)
  cases hx : (s.Jobs[i]).CreatedAt with
  | none => exact absurd hx h1
  | some t =>
    cases hy : (s.Jobs[j]).CreatedAt with
    | none => exact absurd hy h2
    | some u => simp [hx, hy, Time.Before]

theorem Swap_eq {s : JobSort} {i j : Nat} (hi : i < s.Jobs.length) (hj : j < s.Jobs.length) :
    s.Swap i j = .ok ⟨swapped s.Jobs i j⟩ := by
  unfold JobSort.Swap swapped
  rw [List.getElem?_eq_getElem hi, List.getElem?_eq_getElem hj]

theorem length_swapped (l : List Job) (i j : Nat) : (swapped l i j).length = l.length := by
  unfold swapped
  split <;> simp

theorem getElem?_swapped {l : List Job} {i j : Nat} (hi : i < l.length) (hj : j < l.length)
    (k : Nat) : (swapped l i j)[k]? = if k = j then l[i]? else if k = i then l[j]? else l[k]? := by
  unfold swapped
  rw [List.getElem?_eq_getElem hi, List.getElem?_eq_getElem hj]
  simp only [List.getElem?_set, List.length_set]
  by_cases h1 : j = k
  · subst h1; simp [hj]
  · by_cases h2 : i = k
    · subst h2; simp [h1, hi, Ne.symm h1]
    · simp [h1, h2, Ne.symm h1, Ne.symm h2]

theorem swapped_perm (l : List Job) (i j : Nat) : (swapped l i j).Perm l := by
  unfold swapped
  split
  · rename_i x y hx hy
    rw [List.getElem?_eq_some] at hx hy
    obtain ⟨hi, hx⟩ := hx
    obtain ⟨hj, hy⟩ := hy
    rw [List.perm_iff_count]
    intro a
    rw [List.count_set _ _ _ _ (by simpa using hj), List.count_set _ _ _ _ hi]
    simp only [List.getElem_set]
    have c1 := List.count_pos_iff.2 (List.getElem_mem hi)
    have c2 := List.count_pos_iff.2 (List.getElem_mem hj)
    rw [hx] at c1
    rw [hy] at c2
    by_cases hij : i = j
    · subst hij
      have hxy : x = y := by rw [← hx, ← hy]
      subst hxy
      simp only [if_true, hx]
      by_cases hxa : x = a
      · subst hxa; simp; omega
      · simp [hxa]
    · simp only [hij, if_false, hx, hy]
      by_cases hxa : x = a
      · subst hxa
        by_cases hya : y = x
        · subst hya; simp; omega
        · simp [hya]; omega
      · by_cases hya : y = a
        · subst hya; simp [hxa]
        · simp [hxa, hya]
  · rfl

theorem ts_swapped {s : JobSort} {i j : Nat} (hi : i < s.Jobs.length) (hj : j < s.Jobs.length)
    (k : Nat) :
    ts ⟨swapped s.Jobs i j⟩ k = if k = j then ts s i else if k = i then ts s j else ts s k := by
  unfold ts
  simp only [getElem?_swapped hi hj]
  split_ifs <;> rfl

theorem Rearranged.refl (a b : Nat) (s : JobSort) : Rearranged a b s s :=
  ⟨List.Perm.refl _, fun _ _ => rfl, fun k h1 h2 => ⟨k, h1, h2, rfl⟩⟩

theorem Rearranged.trans {a b : Nat} {s t u : JobSort} (h1 : Rearranged a b s t)
    (h2 : Rearranged a b t u) : Rearranged a b s u := by
  refine ⟨h2.1.trans h1.1, fun k hk => (h2.2.1 k hk).trans (h1.2.1 k hk), fun k hk1 hk2 => ?_⟩
  obtain ⟨m, hm1, hm2, hm⟩ := h2.2.2 k hk1 hk2
  obtain ⟨n, hn1, hn2, hn⟩ := h1.2.2 m hm1 hm2
  exact ⟨n, hn1, hn2, hm.trans hn⟩

theorem Rearranged.mono {a b a' b' : Nat} {s t : JobSort} (h : Rearranged a b s t)
    (ha : a' ≤ a) (hb : b ≤ b') : Rearranged a' b' s t := by
  refine ⟨h.1, fun k hk => h.2.1 k (by omega), fun k hk1 hk2 => ?_⟩
  by_cases hin : a ≤ k ∧ k < b
  · obtain ⟨m, hm1, hm2, hm⟩ := h.2.2 k hin.1 hin.2
    exact ⟨m, by omega, by omega, hm⟩
  · exact ⟨k, hk1, hk2, h.2.1 k (by omega)⟩

theorem Rearranged.length_eq {a b : Nat} {s t : JobSort} (h : Rearranged a b s t) :
    t.Jobs.length = s.Jobs.length := h.1.length_eq

theorem Rearranged.timed {a b : Nat} {s t : JobSort} (h : Rearranged a b s t)
    (ht : Timed s) : Timed t := fun j hj => ht j (h.1.mem_iff.1 hj)

theorem Rearranged.ts_out {a b : Nat} {s t : JobSort} (h : Rearranged a b s t) {k : Nat}
    (hk : k < a ∨ b ≤ k) : ts t k = ts s k := by
  unfold ts
  rw [h.2.1 k hk]

theorem Rearranged.ts_in {a b : Nat} {s t : JobSort} (h : Rearranged a b s t) {k : Nat}
    (hk1 : a ≤ k) (hk2 : k < b) : ∃ m, a ≤ m ∧ m < b ∧ ts t k = ts s m := by
  obtain ⟨m, hm1, hm2, hm⟩ := h.2.2 k hk1 hk2
  refine ⟨m, hm1, hm2, ?_⟩
  unfold ts
  rw [hm]

theorem Rearranged.swap {a b : Nat} (s : JobSort) {i j : Nat} (hi1 : a ≤ i) (hi2 : i < b)
    (hj1 : a ≤ j) (hj2 : j < b) (hb : b ≤ s.Jobs.length) :
    Rearranged a b s ⟨swapped s.Jobs i j⟩ := by
  have hi : i < s.Jobs.length := by omega
  have hj : j < s.Jobs.length := by omega
  refine ⟨swapped_perm _ _ _, fun k hk => ?_, fun k hk1 hk2 => ?_⟩
  · show (swapped s.Jobs i j)[k]? = _
    rw [getElem?_swapped hi hj, if_neg (by omega), if_neg (by omega)]
  · show ∃ m, a ≤ m ∧ m < b ∧ (swapped s.Jobs i j)[k]? = _
    rw [getElem?_swapped hi hj]
    by_cases h1 : k = j
    · exact ⟨i, hi1, hi2, by rw [if_pos h1]⟩
    · by_cases h2 : k = i
      · exact ⟨j, hj1, hj2, by rw [if_neg h1, if_pos h2]⟩
      · exact ⟨k, hk1, hk2, by rw [if_neg h1, if_neg h2]⟩

theorem SameTies.same (s : JobSort) : SameTies s s := fun _ => rfl

theorem SameTies.andThen {s t u : JobSort} (h1 : SameTies s t) (h2 : SameTies t u) :
    SameTies s u := fun x => (h2 x).trans (h1 x)

theorem swapped_adjacent {l : List Job} {j : Nat} (hj : j + 1 < l.length) :
    swapped l (j + 1) j =
      l.take j ++ l[j + 1] :: l[j] :: l.drop (j + 2) := by
  apply List.ext_getElem?
  intro k
  rw [getElem?_swapped hj (by omega)]
  by_cases h1 : k < j
  · rw [if_neg (by omega), if_neg (by omega), List.getElem?_append_left (by simp; omega)]
    rw [List.getElem?_take]
    simp [h1]
  · rw [List.getElem?_append_right (by simp; omega)]
    have hlen : (List.take j l).length = j := by simp; omega
    rw [hlen]
    by_cases h2 : k = j
    · subst h2
      simp [List.getElem?_eq_getElem hj]
    · by_cases h3 : k = j + 1
      · subst h3
        have : j + 1 - j = 1 := by omega
        simp [this]
      · rw [if_neg h2, if_neg h3]
        obtain ⟨d, hd⟩ : ∃ d, k = j + 2 + d := ⟨k - (j + 2), by omega⟩
        subst hd
        have : j + 2 + d - j = d + 2 := by omega
        simp [this]

theorem SameTies.swap_adjacent {s : JobSort} {j : Nat}
    (hj : j + 1 < s.Jobs.length) (hlt : ts s (j + 1) < ts s j) :
    SameTies s ⟨swapped s.Jobs (j + 1) j⟩ := by
  intro t
  show (swapped s.Jobs (j + 1) j).filter _ = _
  have hj0 : j < s.Jobs.length := by omega
  rw [swapped_adjacent hj]
  conv_rhs => rw [← List.take_append_drop j s.Jobs]
  have hd : s.Jobs.drop j = s.Jobs[j] :: s.Jobs[j + 1] :: s.Jobs.drop (j + 2) := by
    rw [List.drop_eq_getElem_cons hj0, List.drop_eq_getElem_cons hj]
  rw [hd]
  simp only [List.filter_append, List.filter_cons]
  have h1 : ts s j = (s.Jobs[j]).CreatedAt.getD 0 := by
    unfold ts; rw [List.getElem?_eq_getElem hj0]
  have h2 : ts s (j + 1) = (s.Jobs[j + 1]).CreatedAt.getD 0 := by
    unfold ts; rw [List.getElem?_eq_getElem hj]
  by_cases hx : (s.Jobs[j]).CreatedAt = some t
  · by_cases hy : (s.Jobs[j + 1]).CreatedAt = some t
    · rw [h1, h2, hx, hy] at hlt
      exact absurd hlt (lt_irrefl _)
    · simp [hx, hy]
  · simp [hx]

/-! ## `insertionSort` -/

theorem insertionSortInner_spec (a i : Nat) : ∀ (j : Nat) (data : JobSort), Timed data →
    a ≤ j → j ≤ i → i < data.Jobs.length →
    (∀ p q, a ≤ p → p ≤ q → q ≤ i → p ≠ j → q ≠ j → ts data p ≤ ts data q) →
    (∀ q, j < q → q ≤ i → ts data j ≤ ts data q) →
    ∃ d, insertionSortInner a j data = .ok d ∧ Rearranged a (i + 1) data d ∧
      SortedOn d a (i + 1) ∧ SameTies data d := by
  intro j
  induction j with
  | zero =>
    intro data _ ha _ _ hA hB
    refine ⟨data, rfl, Rearranged.refl _ _ _, ?_, SameTies.same _⟩
    intro p q hp hpq hq
    by_cases h0 : p = q
    · subst h0; exact le_refl _
    · by_cases hp0 : p = 0
      · subst hp0; exact hB q (by omega) (by omega)
      · exact hA p q hp hpq (by omega) hp0 (by omega)
  | succ j ih =>
    intro data ht ha hji hi hA hB
    have hj1 : j + 1 < data.Jobs.length := by omega
    have hj0 : j < data.Jobs.length := by omega
    rw [insertionSortInner]
    by_cases hgt : j + 1 > a
    · rw [if_pos hgt, Less_eq ht hj1 hj0, Outcome.bind_ok]
      by_cases hlt : ts data (j + 1) < ts data j
      · rw [decide_eq_true hlt, if_pos rfl, Swap_eq hj1 hj0, Outcome.bind_ok]
        have hre : Rearranged a (i + 1) data ⟨swapped data.Jobs (j + 1) j⟩ :=
          Rearranged.swap data (by omega) (by omega) (by omega) (by omega) (by omega)
        obtain ⟨d, hd, hr, hs, hst⟩ := ih ⟨swapped data.Jobs (j + 1) j⟩ (hre.timed ht)
          (by omega) (by omega) (by rw [length_swapped]; exact hi)
          (by
            intro p q hp hpq hq hpj hqj
            rw [ts_swapped hj1 hj0 p, ts_swapped hj1 hj0 q, if_neg hpj, if_neg hqj]
            by_cases hp1 : p = j + 1
            · rw [if_pos hp1]
              by_cases hq1 : q = j + 1
              · rw [if_pos hq1]
              · rw [if_neg hq1]
                exact hA j q (by omega) (by omega) hq (by omega) hq1
            · rw [if_neg hp1]
              by_cases hq1 : q = j + 1
              · rw [if_pos hq1]
                exact hA p j hp (by omega) (by omega) hp1 (by omega)
              · rw [if_neg hq1]
                exact hA p q hp hpq hq hp1 hq1)
          (by
            intro q hq1 hq2
            rw [ts_swapped hj1 hj0 j, ts_swapped hj1 hj0 q, if_pos rfl,
              if_neg (by omega : ¬ q = j)]
            by_cases hq3 : q = j + 1
            · rw [if_pos hq3]; exact le_of_lt hlt
            · rw [if_neg hq3]; exact hB q (by omega) hq2)
        exact ⟨d, hd, hre.trans hr, hs, (SameTies.swap_adjacent hj1 hlt).andThen hst⟩
      · rw [decide_eq_false hlt]
        refine ⟨data, rfl, Rearranged.refl _ _ _, ?_, SameTies.same _⟩
        intro p q hp hpq hq
        by_cases h0 : p = q
        · subst h0; exact le_refl _
        · by_cases hp1 : p = j + 1
          · subst hp1; exact hB q (by omega) (by omega)
          · by_cases hq1 : q = j + 1
            · subst hq1
              exact le_trans (hA p j hp (by omega) (by omega) hp1 (by omega)) (not_lt.1 hlt)
            · exact hA p q hp hpq (by omega) hp1 hq1
    · rw [if_neg hgt]
      refine ⟨data, rfl, Rearranged.refl _ _ _, ?_, SameTies.same _⟩
      intro p q hp hpq hq
      by_cases h0 : p = q
      · subst h0; exact le_refl _
      · by_cases hp1 : p = j + 1
        · subst hp1; exact hB q (by omega) (by omega)
        · exact hA p q hp hpq (by omega) hp1 (by omega)

theorem insertionSortOuter_spec (a b : Nat) : ∀ (fuel i : Nat) (data : JobSort), Timed data →
    a < i → i ≤ b → b ≤ data.Jobs.length → b - i ≤ fuel → SortedOn data a i →
    ∃ d, insertionSortOuter a b fuel i data = .ok d ∧ Rearranged a b data d ∧
      SortedOn d a b ∧ SameTies data d := by
  intro fuel
  induction fuel with
  | zero =>
    intro i data _ _ hib _ hf hs
    have : i = b := by omega
    subst this
    exact ⟨data, by simp [insertionSortOuter], Rearranged.refl _ _ _, hs, SameTies.same _⟩
  | succ fuel ih =>
    intro i data ht hai hib hb hf hs
    rw [insertionSortOuter]
    by_cases hlt : i < b
    · rw [if_pos hlt]
      obtain ⟨d1, hd1, hr1, hs1, hst1⟩ := insertionSortInner_spec a i i data ht (by omega)
        (le_refl _) (by omega)
        (fun p q hp hpq hq hpi hqi => hs p q hp hpq (by omega))
        (fun q hq1 hq2 => by omega)
      rw [hd1, Outcome.bind_ok]
      have hr1' : Rearranged a b data d1 := hr1.mono (le_refl _) (by omega)
      obtain ⟨d2, hd2, hr2, hs2, hst2⟩ := ih (i + 1) d1 (hr1.timed ht) (by omega) (by omega)
        (by rw [hr1.length_eq]; exact hb) (by omega) hs1
      exact ⟨d2, hd2, hr1'.trans hr2, hs2, hst1.andThen hst2⟩
    · have : i = b := by omega
      subst this
      exact ⟨data, by simp, Rearranged.refl _ _ _, hs, SameTies.same _⟩

theorem insertionSort_spec (data : JobSort) (a b : Nat) (ht : Timed data)
    (hb : b ≤ data.Jobs.length) :
    ∃ d, insertionSort data a b = .ok d ∧ Rearranged a b data d ∧ SortedOn d a b ∧
      SameTies data d := by
  unfold insertionSort
  by_cases hab : a + 1 ≤ b
  · exact insertionSortOuter_spec a b (b - a) (a + 1) data ht (by omega) hab hb (by omega)
      (fun p q hp hpq hq => by
        have : p = q := by omega
        subst this; exact le_refl _)
  · have h0 : ¬ (a + 1 < b) := by omega
    refine ⟨data, ?_, Rearranged.refl _ _ _, ?_, SameTies.same _⟩
    · cases hf : b - a with
      | zero => simp [insertionSortOuter, h0]
      | succ n => simp [insertionSortOuter, h0]
    · intro p q hp hpq hq
      omega

/-! ## `partition` -/

theorem partitionSkipLess_spec (data : JobSort) (ht : Timed data) (a j : Nat)
    (ha : a < data.Jobs.length) (hj : j < data.Jobs.length) :
    ∀ (fuel i : Nat), j + 1 - i ≤ fuel →
    ∃ i', partitionSkipLess data a j fuel i = .ok i' ∧ i ≤ i' ∧ (i ≤ j + 1 → i' ≤ j + 1) ∧
      (∀ k, i ≤ k → k < i' → ts data k < ts data a) ∧
      (i' ≤ j → ¬ ts data i' < ts data a) := by
  intro fuel
  induction fuel with
  | zero =>
    intro i hf
    have hij : ¬ i ≤ j := by omega
    exact ⟨i, by simp [partitionSkipLess, hij], le_refl _, fun h => h,
      fun k h1 h2 => by omega, fun h => absurd h hij⟩
  | succ fuel ih =>
    intro i hf
    rw [partitionSkipLess]
    by_cases hij : i ≤ j
    · rw [if_pos hij, Less_eq ht (by omega) ha, Outcome.bind_ok]
      by_cases hlt : ts data i < ts data a
      · rw [decide_eq_true hlt, if_pos rfl]
        obtain ⟨i', h1, h2, h3, h4, h5⟩ := ih (i + 1) (by omega)
        refine ⟨i', h1, by omega, fun _ => h3 (by omega), fun k hk1 hk2 => ?_, h5⟩
        by_cases hk : k = i
        · subst hk; exact hlt
        · exact h4 k (by omega) hk2
      · rw [decide_eq_false hlt]
        exact ⟨i, by simp, le_refl _, fun h => h, fun k h1 h2 => by omega, fun _ => hlt⟩
    · rw [if_neg hij]
      exact ⟨i, rfl, le_refl _, fun h => h, fun k h1 h2 => by omega, fun h => absurd h hij⟩

theorem partitionSkipGreaterEq_spec (data : JobSort) (ht : Timed data) (a i : Nat)
    (ha : a < data.Jobs.length) (hi : 1 ≤ i) :
    ∀ (fuel j : Nat), j < data.Jobs.length → j + 1 - i ≤ fuel →
    ∃ j', partitionSkipGreaterEq data a i fuel j = .ok j' ∧ j' ≤ j ∧ (i ≤ j + 1 → i ≤ j' + 1) ∧
      (∀ k, j' < k → k ≤ j → ¬ ts data k < ts data a) ∧
      (i ≤ j' → ts data j' < ts data a) := by
  intro fuel
  induction fuel with
  | zero =>
    intro j _ hf
    have hij : ¬ i ≤ j := by omega
    exact ⟨j, by simp [partitionSkipGreaterEq, hij], le_refl _, fun h => h,
      fun k h1 h2 => by omega, fun h => absurd h hij⟩
  | succ fuel ih =>
    intro j hj hf
    rw [partitionSkipGreaterEq]
    by_cases hij : i ≤ j
    · rw [if_pos hij, Less_eq ht hj ha, Outcome.bind_ok]
      by_cases hlt : ts data j < ts data a
      · rw [decide_eq_true hlt]
        exact ⟨j, by simp, le_refl _, fun h => h, fun k h1 h2 => by omega, fun _ => hlt⟩
      · rw [decide_eq_false hlt]
        obtain ⟨j', h1, h2, h3, h4, h5⟩ := ih (j - 1) (by omega) (by omega)
        refine ⟨j', by simpa using h1, by omega, fun _ => by have := h3 (by omega); omega,
          fun k hk1 hk2 => ?_, h5⟩
        by_cases hk : k = j
        · subst hk; exact hlt
        · exact h4 k hk1 (by omega)
    · rw [if_neg hij]
      exact ⟨j, rfl, le_refl _, fun h => h, fun k h1 h2 => by omega, fun h => absurd h hij⟩

theorem partitionLoop_spec (a b : Nat) : ∀ (fuel : Nat) (data : JobSort) (i j : Nat),
    Timed data → a < i → i ≤ j + 1 → j < b → b ≤ data.Jobs.length → j + 1 - i < fuel →
    (∀ k, a < k → k < i → ts data k < ts data a) →
    (∀ k, j < k → k < b → ¬ ts data k < ts data a) →
    ∃ d j', partitionLoop a fuel data i j = .ok (d, j') ∧ Rearranged (a + 1) b data d ∧
      a ≤ j' ∧ j' < b ∧ (∀ k, a < k → k ≤ j' → ts d k < ts d a) ∧
      (∀ k, j' < k → k < b → ¬ ts d k < ts d a) := by
  intro fuel
  induction fuel with
  | zero => intro data i j _ _ _ _ _ hf; omega
  | succ fuel ih =>
    intro data i j ht hai hij hjb hb hf hL hR
    rw [partitionLoop]
    obtain ⟨i1, e1, p1, p2, p3, p4⟩ :=
      partitionSkipLess_spec data ht a j (by omega) (by omega) (j + 1 - i) i (le_refl _)
    rw [e1, Outcome.bind_ok]
    have p2' := p2 hij
    obtain ⟨j1, e2, q1, q2, q3, q4⟩ :=
      partitionSkipGreaterEq_spec data ht a i1 (by omega) (by omega) (j + 1 - i1) j (by omega)
        (le_refl _)
    rw [e2, Outcome.bind_ok]
    have q2' := q2 p2'
    have hL1 : ∀ k, a < k → k < i1 → ts data k < ts data a := by
      intro k hk1 hk2
      by_cases hk : k < i
      · exact hL k hk1 hk
      · exact p3 k (by omega) hk2
    have hR1 : ∀ k, j1 < k → k < b → ¬ ts data k < ts data a := by
      intro k hk1 hk2
      by_cases hk : j < k
      · exact hR k hk hk2
      · exact q3 k hk1 (by omega)
    by_cases hgt : i1 > j1
    · rw [if_pos hgt]
      exact ⟨data, j1, rfl, Rearranged.refl _ _ _, by omega, by omega,
        fun k hk1 hk2 => hL1 k hk1 (by omega), hR1⟩
    · rw [if_neg hgt]
      have hi1 : i1 < data.Jobs.length := by omega
      have hj1 : j1 < data.Jobs.length := by omega
      rw [Swap_eq hi1 hj1, Outcome.bind_ok]
      have hre : Rearranged (a + 1) b data ⟨swapped data.Jobs i1 j1⟩ :=
        Rearranged.swap data (by omega) (by omega) (by omega) (by omega) hb
      have hlt := q4 (by omega)
      have hge := p4 (by omega)
      have hne : i1 ≠ j1 := fun h => hge (h ▸ hlt)
      have hpa : ts ⟨swapped data.Jobs i1 j1⟩ a = ts data a := hre.ts_out (Or.inl (by omega))
      obtain ⟨d, j', e3, r1, r2, r3, r4, r5⟩ := ih ⟨swapped data.Jobs i1 j1⟩ (i1 + 1) (j1 - 1)
        (hre.timed ht) (by omega) (by omega) (by omega)
        (by rw [length_swapped]; exact hb) (by omega)
        (by
          intro k hk1 hk2
          rw [hpa, ts_swapped hi1 hj1 k, if_neg (by omega)]
          by_cases hk : k = i1
          · rw [if_pos hk]; exact hlt
          · rw [if_neg hk]; exact hL1 k hk1 (by omega))
        (by
          intro k hk1 hk2
          rw [hpa, ts_swapped hi1 hj1 k]
          by_cases hk : k = j1
          · rw [if_pos hk]; exact hge
          · rw [if_neg hk, if_neg (by omega)]; exact hR1 k (by omega) hk2)
      exact ⟨d, j', e3, hre.trans r1, r2, r3, r4, r5⟩

theorem partition_spec (data : JobSort) (a b pivot : Nat) (ht : Timed data) (hap : a ≤ pivot)
    (hpb : pivot < b) (hb : b ≤ data.Jobs.length) :
    ∃ d mid ap, partition data a b pivot = .ok (d, mid, ap) ∧ Rearranged a b data d ∧
      a ≤ mid ∧ mid < b ∧ (∀ k, a ≤ k → k < mid → ts d k < ts d mid) ∧
      (∀ k, mid < k → k < b → ts d mid ≤ ts d k) := by
  unfold partition
  have hal : a < data.Jobs.length := by omega
  rw [Swap_eq hal (by omega), Outcome.bind_ok]
  have hre0 : Rearranged a b data ⟨swapped data.Jobs a pivot⟩ :=
    Rearranged.swap data (le_refl _) (by omega) hap hpb hb
  generalize (⟨swapped data.Jobs a pivot⟩ : JobSort) = d0 at hre0 ⊢
  have ht0 : Timed d0 := hre0.timed ht
  have hl0 : d0.Jobs.length = data.Jobs.length := hre0.length_eq
  obtain ⟨i, e1, p1, p2, p3, p4⟩ :=
    partitionSkipLess_spec d0 ht0 a (b - 1) (by omega) (by omega) (b - 1 + 1 - (a + 1)) (a + 1)
      (le_refl _)
  rw [e1, Outcome.bind_ok]
  have p2' := p2 (by omega)
  obtain ⟨j, e2, q1, q2, q3, q4⟩ :=
    partitionSkipGreaterEq_spec d0 ht0 a i (by omega) (by omega) (b - 1 + 1 - i) (b - 1)
      (by omega) (le_refl _)
  rw [e2, Outcome.bind_ok]
  have q2' := q2 p2'
  -- the final exchange of the pivot with the entry `j'`
  have fin : ∀ (d : JobSort) (j' : Nat), Timed d → d.Jobs.length = data.Jobs.length →
      a ≤ j' → j' < b → (∀ k, a < k → k ≤ j' → ts d k < ts d a) →
      (∀ k, j' < k → k < b → ¬ ts d k < ts d a) →
      Rearranged a b d ⟨swapped d.Jobs j' a⟩ ∧
      (∀ k, a ≤ k → k < j' → ts ⟨swapped d.Jobs j' a⟩ k < ts ⟨swapped d.Jobs j' a⟩ j') ∧
      (∀ k, j' < k → k < b → ts ⟨swapped d.Jobs j' a⟩ j' ≤ ts ⟨swapped d.Jobs j' a⟩ k) := by
    intro d j' _ hl hj1 hj2 hL hR
    have hjl : j' < d.Jobs.length := by omega
    have hal' : a < d.Jobs.length := by omega
    refine ⟨Rearranged.swap d hj1 hj2 (le_refl _) (by omega) (by omega), ?_, ?_⟩
    · intro k hk1 hk2
      rw [ts_swapped hjl hal' k, ts_swapped hjl hal' j']
      have hja : j' ≠ a := by omega
      rw [if_neg hja, if_pos rfl]
      by_cases hka : k = a
      · rw [if_pos hka]; exact hL j' (by omega) (le_refl _)
      · rw [if_neg hka, if_neg (by omega : ¬ k = j')]; exact hL k (by omega) (by omega)
    · intro k hk1 hk2
      rw [ts_swapped hjl hal' k, ts_swapped hjl hal' j', if_neg (by omega : ¬ k = a),
        if_neg (by omega : ¬ k = j')]
      by_cases hja : j' = a
      · rw [if_pos hja]
        have := hR k hk1 hk2
        rw [← hja] at this
        exact not_lt.1 this
      · rw [if_neg hja, if_pos rfl]; exact not_lt.1 (hR k hk1 hk2)
  by_cases hgt : i > j
  · rw [if_pos hgt]
    have hjl : j < d0.Jobs.length := by omega
    rw [Swap_eq hjl (by omega), Outcome.bind_ok]
    obtain ⟨f1, f2, f3⟩ := fin d0 j ht0 hl0 (by omega) (by omega)
      (fun k hk1 hk2 => p3 k (by omega) (by omega))
      (fun k hk1 hk2 => q3 k hk1 (by omega))
    exact ⟨_, j, true, rfl, hre0.trans f1, by omega, by omega, f2, f3⟩
  · rw [if_neg hgt]
    have hil : i < d0.Jobs.length := by omega
    have hjl : j < d0.Jobs.length := by omega
    rw [Swap_eq hil hjl, Outcome.bind_ok]
    have hre1 : Rearranged (a + 1) b d0 ⟨swapped d0.Jobs i j⟩ :=
      Rearranged.swap d0 (by omega) (by omega) (by omega) (by omega) (by omega)
    have hlt := q4 (by omega)
    have hge := p4 (by omega)
    have hne : i ≠ j := fun h => hge (h ▸ hlt)
    have hpa : ts ⟨swapped d0.Jobs i j⟩ a = ts d0 a := hre1.ts_out (Or.inl (by omega))
    obtain ⟨d, j', e3, r1, r2, r3, r4, r5⟩ := partitionLoop_spec a b (b - a)
      ⟨swapped d0.Jobs i j⟩ (i + 1) (j - 1) (hre1.timed ht0) (by omega) (by omega) (by omega)
      (by rw [length_swapped]; omega) (by omega)
      (by
        intro k hk1 hk2
        rw [hpa, ts_swapped hil hjl k, if_neg (by omega)]
        by_cases hk : k = i
        · rw [if_pos hk]; exact hlt
        · rw [if_neg hk]; exact p3 k (by omega) (by omega))
      (by
        intro k hk1 hk2
        rw [hpa, ts_swapped hil hjl k]
        by_cases hk : k = j
        · rw [if_pos hk]; exact hge
        · rw [if_neg hk, if_neg (by omega)]; exact q3 k (by omega) (by omega))
    rw [e3, Outcome.bind_ok]
    have hre2 : Rearranged a b d0 d := (hre1.trans r1).mono (by omega) (le_refl _)
    have hld : d.Jobs.length = data.Jobs.length := by rw [hre2.length_eq, hl0]
    show ∃ d' mid ap, (d.Swap j' a).bind _ = _ ∧ _
    rw [Swap_eq (by omega) (by omega), Outcome.bind_ok]
    obtain ⟨f1, f2, f3⟩ := fin d j' (hre2.timed ht0) hld r2 r3 r4 r5
    exact ⟨_, j', false, rfl, (hre0.trans hre2).trans f1, r2, r3, f2, f3⟩

/-! ## `partitionEqual` -/

theorem partitionEqualSkipEq_spec (data : JobSort) (ht : Timed data) (a j : Nat)
    (ha : a < data.Jobs.length) (hj : j < data.Jobs.length) :
    ∀ (fuel i : Nat), j + 1 - i ≤ fuel →
    ∃ i', partitionEqualSkipEq data a j fuel i = .ok i' ∧ i ≤ i' ∧ (i ≤ j + 1 → i' ≤ j + 1) ∧
      (∀ k, i ≤ k → k < i' → ¬ ts data a < ts data k) ∧
      (i' ≤ j → ts data a < ts data i') := by
  intro fuel
  induction fuel with
  | zero =>
    intro i hf
    have hij : ¬ i ≤ j := by omega
    exact ⟨i, by simp [partitionEqualSkipEq, hij], le_refl _, fun h => h,
      fun k h1 h2 => by omega, fun h => absurd h hij⟩
  | succ fuel ih =>
    intro i hf
    rw [partitionEqualSkipEq]
    by_cases hij : i ≤ j
    · rw [if_pos hij, Less_eq ht ha (by omega), Outcome.bind_ok]
      by_cases hlt : ts data a < ts data i
      · rw [decide_eq_true hlt]
        exact ⟨i, by simp, le_refl _, fun h => h, fun k h1 h2 => by omega, fun _ => hlt⟩
      · rw [decide_eq_false hlt]
        obtain ⟨i', h1, h2, h3, h4, h5⟩ := ih (i + 1) (by omega)
        refine ⟨i', by simpa using h1, by omega, fun _ => h3 (by omega), fun k hk1 hk2 => ?_, h5⟩
        by_cases hk : k = i
        · subst hk; exact hlt
        · exact h4 k (by omega) hk2
    · rw [if_neg hij]
      exact ⟨i, rfl, le_refl _, fun h => h, fun k h1 h2 => by omega, fun h => absurd h hij⟩

theorem partitionEqualSkipGreater_spec (data : JobSort) (ht : Timed data) (a i : Nat)
    (ha : a < data.Jobs.length) (hi : 1 ≤ i) :
    ∀ (fuel j : Nat), j < data.Jobs.length → j + 1 - i ≤ fuel →
    ∃ j', partitionEqualSkipGreater data a i fuel j = .ok j' ∧ j' ≤ j ∧
      (i ≤ j + 1 → i ≤ j' + 1) ∧
      (∀ k, j' < k → k ≤ j → ts data a < ts data k) ∧
      (i ≤ j' → ¬ ts data a < ts data j') := by
  intro fuel
  induction fuel with
  | zero =>
    intro j _ hf
    have hij : ¬ i ≤ j := by omega
    exact ⟨j, by simp [partitionEqualSkipGreater, hij], le_refl _, fun h => h,
      fun k h1 h2 => by omega, fun h => absurd h hij⟩
  | succ fuel ih =>
    intro j hj hf
    rw [partitionEqualSkipGreater]
    by_cases hij : i ≤ j
    · rw [if_pos hij, Less_eq ht ha hj, Outcome.bind_ok]
      by_cases hlt : ts data a < ts data j
      · rw [decide_eq_true hlt, if_pos rfl]
        obtain ⟨j', h1, h2, h3, h4, h5⟩ := ih (j - 1) (by omega) (by omega)
        refine ⟨j', h1, by omega, fun _ => by have := h3 (by omega); omega,
          fun k hk1 hk2 => ?_, h5⟩
        by_cases hk : k = j
        · subst hk; exact hlt
        · exact h4 k hk1 (by omega)
      · rw [decide_eq_false hlt]
        exact ⟨j, by simp, le_refl _, fun h => h, fun k h1 h2 => by omega, fun _ => hlt⟩
    · rw [if_neg hij]
      exact ⟨j, rfl, le_refl _, fun h => h, fun k h1 h2 => by omega, fun h => absurd h hij⟩

theorem partitionEqualLoop_spec (a b : Nat) : ∀ (fuel : Nat) (data : JobSort) (i j : Nat),
    Timed data → a < i → i ≤ j + 1 → j < b → b ≤ data.Jobs.length → j + 1 - i < fuel →
    (∀ k, a < k → k < i → ¬ ts data a < ts data k) →
    (∀ k, j < k → k < b → ts data a < ts data k) →
    ∃ d i', partitionEqualLoop a fuel data i j = .ok (d, i') ∧ Rearranged (a + 1) b data d ∧
      a < i' ∧ i' ≤ b ∧ (∀ k, a < k → k < i' → ¬ ts d a < ts d k) ∧
      (∀ k, i' ≤ k → k < b → ts d a < ts d k) := by
  intro fuel
  induction fuel with
  | zero => intro data i j _ _ _ _ _ hf; omega
  | succ fuel ih =>
    intro data i j ht hai hij hjb hb hf hL hR
    rw [partitionEqualLoop]
    obtain ⟨i1, e1, p1, p2, p3, p4⟩ :=
      partitionEqualSkipEq_spec data ht a j (by omega) (by omega) (j + 1 - i) i (le_refl _)
    rw [e1, Outcome.bind_ok]
    have p2' := p2 hij
    obtain ⟨j1, e2, q1, q2, q3, q4⟩ :=
      partitionEqualSkipGreater_spec data ht a i1 (by omega) (by omega) (j + 1 - i1) j
        (by omega) (le_refl _)
    rw [e2, Outcome.bind_ok]
    have q2' := q2 p2'
    have hL1 : ∀ k, a < k → k < i1 → ¬ ts data a < ts data k := by
      intro k hk1 hk2
      by_cases hk : k < i
      · exact hL k hk1 hk
      · exact p3 k (by omega) hk2
    have hR1 : ∀ k, j1 < k → k < b → ts data a < ts data k := by
      intro k hk1 hk2
      by_cases hk : j < k
      · exact hR k hk hk2
      · exact q3 k hk1 (by omega)
    by_cases hgt : i1 > j1
    · rw [if_pos hgt]
      exact ⟨data, i1, rfl, Rearranged.refl _ _ _, by omega, by omega, hL1,
        fun k hk1 hk2 => hR1 k (by omega) hk2⟩
    · rw [if_neg hgt]
      have hi1 : i1 < data.Jobs.length := by omega
      have hj1 : j1 < data.Jobs.length := by omega
      rw [Swap_eq hi1 hj1, Outcome.bind_ok]
      have hre : Rearranged (a + 1) b data ⟨swapped data.Jobs i1 j1⟩ :=
        Rearranged.swap data (by omega) (by omega) (by omega) (by omega) hb
      have hle := q4 (by omega)
      have hgt' := p4 (by omega)
      have hne : i1 ≠ j1 := fun h => hle (h ▸ hgt')
      have hpa : ts ⟨swapped data.Jobs i1 j1⟩ a = ts data a := hre.ts_out (Or.inl (by omega))
      obtain ⟨d, i', e3, r1, r2, r3, r4, r5⟩ := ih ⟨swapped data.Jobs i1 j1⟩ (i1 + 1) (j1 - 1)
        (hre.timed ht) (by omega) (by omega) (by omega)
        (by rw [length_swapped]; exact hb) (by omega)
        (by
          intro k hk1 hk2
          rw [hpa, ts_swapped hi1 hj1 k, if_neg (by omega : ¬ k = j1)]
          by_cases hk : k = i1
          · rw [if_pos hk]; exact hle
          · rw [if_neg hk]; exact hL1 k hk1 (by omega))
        (by
          intro k hk1 hk2
          rw [hpa, ts_swapped hi1 hj1 k]
          by_cases hk : k = j1
          · rw [if_pos hk]; exact hgt'
          · rw [if_neg hk, if_neg (by omega : ¬ k = i1)]; exact hR1 k (by omega) hk2)
      exact ⟨d, i', e3, hre.trans r1, r2, r3, r4, r5⟩

theorem partitionEqual_spec (data : JobSort) (a b pivot : Nat) (ht : Timed data)
    (hap : a ≤ pivot) (hpb : pivot < b) (hb : b ≤ data.Jobs.length) :
    ∃ d mid, partitionEqual data a b pivot = .ok (d, mid) ∧ Rearranged a b data d ∧
      a < mid ∧ mid ≤ b ∧ (∀ k, a ≤ k → k < mid → ts d k ≤ ts data pivot) ∧
      (∀ k, mid ≤ k → k < b → ts data pivot < ts d k) := by
  unfold partitionEqual
  have hal : a < data.Jobs.length := by omega
  have hpl : pivot < data.Jobs.length := by omega
  rw [Swap_eq hal hpl, Outcome.bind_ok]
  have hre0 : Rearranged a b data ⟨swapped data.Jobs a pivot⟩ :=
    Rearranged.swap data (le_refl _) (by omega) hap hpb hb
  have hp0 : ts ⟨swapped data.Jobs a pivot⟩ a = ts data pivot := by
    rw [ts_swapped hal hpl a]
    by_cases h : a = pivot
    · rw [if_pos h, h]
    · rw [if_neg h, if_pos rfl]
  generalize (⟨swapped data.Jobs a pivot⟩ : JobSort) = d0 at hre0 hp0 ⊢
  obtain ⟨d, mid, e, r1, r2, r3, r4, r5⟩ := partitionEqualLoop_spec a b (b - a + 1) d0 (a + 1)
    (b - 1) (hre0.timed ht) (by omega) (by omega) (by omega)
    (by rw [hre0.length_eq]; exact hb) (by omega) (fun k hk1 hk2 => by omega)
    (fun k hk1 hk2 => by omega)
  have hpa : ts d a = ts data pivot := by rw [r1.ts_out (Or.inl (by omega)), hp0]
  refine ⟨d, mid, e, hre0.trans (r1.mono (by omega) (le_refl _)), r2, r3, ?_, ?_⟩
  · intro k hk1 hk2
    by_cases hka : k = a
    · rw [hka, hpa]
    · rw [← hpa]; exact not_lt.1 (r4 k (by omega) hk2)
  · intro k hk1 hk2
    rw [← hpa]; exact r5 k hk1 hk2

/-! ## `reverseRange`, `breakPatterns`, `choosePivot` -/

theorem reverseRangeLoop_spec (a b : Nat) : ∀ (fuel : Nat) (data : JobSort) (i j : Nat),
    a ≤ i → j < b → b ≤ data.Jobs.length → j - i ≤ fuel →
    ∃ d, reverseRangeLoop fuel data i j = .ok d ∧ Rearranged a b data d := by
  intro fuel
  induction fuel with
  | zero =>
    intro data i j _ _ _ hf
    have : ¬ i < j := by omega
    exact ⟨data, by simp [reverseRangeLoop, this], Rearranged.refl _ _ _⟩
  | succ fuel ih =>
    intro data i j hi hj hb hf
    rw [reverseRangeLoop]
    by_cases hlt : i < j
    · rw [if_pos hlt, Swap_eq (by omega) (by omega), Outcome.bind_ok]
      have hre : Rearranged a b data ⟨swapped data.Jobs i j⟩ :=
        Rearranged.swap data hi (by omega) (by omega) hj hb
      obtain ⟨d, e, r⟩ := ih ⟨swapped data.Jobs i j⟩ (i + 1) (j - 1) (by omega) (by omega)
        (by rw [length_swapped]; exact hb) (by omega)
      exact ⟨d, e, hre.trans r⟩
    · rw [if_neg hlt]
      exact ⟨data, rfl, Rearranged.refl _ _ _⟩

theorem reverseRange_spec (data : JobSort) (a b : Nat) (hab : a < b)
    (hb : b ≤ data.Jobs.length) :
    ∃ d, reverseRange data a b = .ok d ∧ Rearranged a b data d :=
  reverseRangeLoop_spec a b (b - a) data a (b - 1) (le_refl _) (by omega) hb (by omega)

theorem nextPowerOfTwo_le {length : Nat} (h : 0 < length) :
    nextPowerOfTwo length ≤ 2 * length := by
  unfold nextPowerOfTwo bitsLen
  rw [if_neg (by omega), Nat.one_shiftLeft, pow_succ]
  have := Nat.log2_self_le (by omega : length ≠ 0)
  omega

theorem breakPatternsLoop_spec (a b modulus idx : Nat) (hm : modulus ≤ 2 * (b - a))
    (hab : a < b) :
    ∀ (n i random : Nat) (data : JobSort), b ≤ data.Jobs.length → a ≤ idx - 1 + i →
    idx - 1 + i + n ≤ b →
    ∃ d, breakPatternsLoop a (b - a) modulus idx n i random data = .ok d ∧
      Rearranged a b data d := by
  intro n
  induction n with
  | zero => intro i random data _ _ _; exact ⟨data, rfl, Rearranged.refl _ _ _⟩
  | succ n ih =>
    intro i random data hb h1 h2
    rw [breakPatternsLoop]
    have hand : xorshiftNext random &&& (modulus - 1) ≤ modulus - 1 := Nat.and_le_right
    generalize xorshiftNext random &&& (modulus - 1) = other at hand
    have ho : (if other ≥ b - a then other - (b - a) else other) < b - a := by
      split_ifs <;> omega
    generalize (if other ≥ b - a then other - (b - a) else other) = other1 at ho
    rw [Swap_eq (by omega) (by omega), Outcome.bind_ok]
    have hre : Rearranged a b data ⟨swapped data.Jobs (idx - 1 + i) (a + other1)⟩ :=
      Rearranged.swap data h1 (by omega) (by omega) (by omega) hb
    obtain ⟨d, e, r⟩ := ih (i + 1) (xorshiftNext random)
      ⟨swapped data.Jobs (idx - 1 + i) (a + other1)⟩ (by rw [length_swapped]; exact hb)
      (by omega) (by omega)
    exact ⟨d, e, hre.trans r⟩

theorem breakPatterns_spec (data : JobSort) (a b : Nat) (hb : b ≤ data.Jobs.length) :
    ∃ d, breakPatterns data a b = .ok d ∧ Rearranged a b data d := by
  unfold breakPatterns
  by_cases h8 : b - a ≥ 8
  · rw [if_pos h8]
    exact breakPatternsLoop_spec a b _ _ (nextPowerOfTwo_le (by omega)) (by omega) 3 0 (b - a)
      data hb (by omega) (by omega)
  · rw [if_neg h8]
    exact ⟨data, rfl, Rearranged.refl _ _ _⟩

theorem order2_spec (data : JobSort) (ht : Timed data) (P : Nat → Prop)
    (hP : ∀ x, P x → x < data.Jobs.length) (a b swaps : Nat) (ha : P a) (hb : P b) :
    ∃ r, order2 data a b swaps = .ok r ∧ P r.1 ∧ P r.2.1 := by
  unfold order2
  rw [Less_eq ht (hP b hb) (hP a ha), Outcome.bind_ok]
  split_ifs
  · exact ⟨_, rfl, hb, ha⟩
  · exact ⟨_, rfl, ha, hb⟩

theorem median_spec (data : JobSort) (ht : Timed data) (P : Nat → Prop)
    (hP : ∀ x, P x → x < data.Jobs.length) (a b c swaps : Nat) (ha : P a) (hb : P b)
    (hc : P c) : ∃ r, median data a b c swaps = .ok r ∧ P r.1 := by
  unfold median
  obtain ⟨r1, e1, p1, q1⟩ := order2_spec data ht P hP a b swaps ha hb
  rw [e1, Outcome.bind_ok]
  obtain ⟨r2, e2, p2, q2⟩ := order2_spec data ht P hP r1.2.1 c r1.2.2 q1 hc
  rw [e2, Outcome.bind_ok]
  obtain ⟨r3, e3, p3, q3⟩ := order2_spec data ht P hP r1.1 r2.1 r2.2.2 p1 p2
  rw [e3, Outcome.bind_ok]
  exact ⟨_, rfl, q3⟩

theorem choosePivot_spec (data : JobSort) (ht : Timed data) (a b : Nat) (hab : a < b)
    (hb : b ≤ data.Jobs.length) :
    ∃ pivot hint, choosePivot data a b = .ok (pivot, hint) ∧ a ≤ pivot ∧ pivot < b := by
  have hfin : ∀ r : Nat × Nat, (a ≤ r.1 ∧ r.1 < b) →
      ∃ pivot hint, (if r.2 = 0 then Outcome.ok (r.1, sortedHint.increasingHint)
        else if r.2 = 12 then Outcome.ok (r.1, sortedHint.decreasingHint)
        else Outcome.ok (r.1, sortedHint.unknownHint)) = .ok (pivot, hint) ∧
        a ≤ pivot ∧ pivot < b := by
    intro r hr
    split_ifs
    · exact ⟨_, _, rfl, hr⟩
    · exact ⟨_, _, rfl, hr⟩
    · exact ⟨_, _, rfl, hr⟩
  let P : Nat → Prop := fun x => a ≤ x ∧ x < b
  have hP : ∀ x, P x → x < data.Jobs.length := fun x hx => lt_of_lt_of_le hx.2 hb
  unfold choosePivot
  simp only []
  by_cases h8 : b - a ≥ 8
  · rw [if_pos h8]
    by_cases h50 : b - a ≥ 50
    · rw [if_pos h50]
      unfold medianAdjacent
      obtain ⟨ri, ei, pi⟩ := median_spec data ht P hP (a + (b - a) / 4 * 1 - 1)
        (a + (b - a) / 4 * 1) (a + (b - a) / 4 * 1 + 1) 0
        (by show _ ∧ _; omega) (by show _ ∧ _; omega) (by show _ ∧ _; omega)
      rw [ei, Outcome.bind_ok]
      obtain ⟨rj, ej, pj⟩ := median_spec data ht P hP (a + (b - a) / 4 * 2 - 1)
        (a + (b - a) / 4 * 2) (a + (b - a) / 4 * 2 + 1) ri.2
        (by show _ ∧ _; omega) (by show _ ∧ _; omega) (by show _ ∧ _; omega)
      rw [ej, Outcome.bind_ok]
      obtain ⟨rk, ek, pk⟩ := median_spec data ht P hP (a + (b - a) / 4 * 3 - 1)
        (a + (b - a) / 4 * 3) (a + (b - a) / 4 * 3 + 1) rj.2
        (by show _ ∧ _; omega) (by show _ ∧ _; omega) (by show _ ∧ _; omega)
      rw [ek, Outcome.bind_ok, Outcome.bind_ok]
      obtain ⟨r, e, p⟩ := median_spec data ht P hP ri.1 rj.1 rk.1 rk.2 pi pj pk
      rw [e, Outcome.bind_ok]
      exact hfin r p
    · rw [if_neg h50, Outcome.bind_ok]
      obtain ⟨r, e, p⟩ := median_spec data ht P hP (a + (b - a) / 4 * 1) (a + (b - a) / 4 * 2)
        (a + (b - a) / 4 * 3) 0
        (by show _ ∧ _; omega) (by show _ ∧ _; omega) (by show _ ∧ _; omega)
      rw [e, Outcome.bind_ok]
      exact hfin r p
  · rw [if_neg h8, Outcome.bind_ok]
    exact hfin (a + (b - a) / 4 * 2, 0) (by show _ ∧ _; simp only []; omega)

/-! ## `partialInsertionSort` -/

theorem LowerBounded.rearranged {s t : JobSort} {a b : Nat} (h : LowerBounded s a b)
    (hr : Rearranged a b s t) : LowerBounded t a b := by
  rcases h with h | h
  · exact Or.inl h
  · by_cases ha : a = 0
    · exact Or.inl ha
    · refine Or.inr fun k hk1 hk2 => ?_
      obtain ⟨m, hm1, hm2, hm⟩ := hr.ts_in hk1 hk2
      rw [hm, hr.ts_out (Or.inl (by omega))]
      exact h m hm1 hm2

theorem SortedOn.extend {s : JobSort} {a i i1 : Nat} (hs : SortedOn s a i)
    (hadj : ∀ k, i ≤ k → k < i1 → ¬ ts s k < ts s (k - 1)) : SortedOn s a i1 := by
  have key : ∀ q, q < i1 → ∀ p, a ≤ p → p ≤ q → ts s p ≤ ts s q := by
    intro q
    induction q with
    | zero =>
      intro _ p _ hp
      have : p = 0 := by omega
      subst this; exact le_refl _
    | succ q ih =>
      intro hq p hp hpq
      by_cases hqi : q + 1 < i
      · exact hs p (q + 1) hp hpq hqi
      · by_cases hpe : p = q + 1
        · subst hpe; exact le_refl _
        · have h1 := ih (by omega) p hp (by omega)
          have h2 := hadj (q + 1) (by omega) hq
          simp only [Nat.add_sub_cancel] at h2
          exact le_trans h1 (not_lt.1 h2)
  intro p q hp hpq hq
  exact key q hq p hp hpq

theorem SortedOn.rearranged_above {s t : JobSort} {a i b : Nat} (hs : SortedOn s a i)
    (hr : Rearranged i b s t) : SortedOn t a i := by
  intro p q hp hpq hq
  rw [hr.ts_out (Or.inl (by omega)), hr.ts_out (Or.inl hq)]
  exact hs p q hp hpq hq

theorem partialInsertionSortScan_spec (data : JobSort) (ht : Timed data) (b : Nat)
    (hb : b ≤ data.Jobs.length) :
    ∀ (fuel i : Nat), 1 ≤ i → i ≤ b → b - i ≤ fuel →
    ∃ i1, partialInsertionSortScan data b fuel i = .ok i1 ∧ i ≤ i1 ∧ i1 ≤ b ∧
      (∀ k, i ≤ k → k < i1 → ¬ ts data k < ts data (k - 1)) ∧
      (i1 < b → ts data i1 < ts data (i1 - 1)) := by
  intro fuel
  induction fuel with
  | zero =>
    intro i _ hib hf
    have hlt : ¬ i < b := by omega
    exact ⟨i, by simp [partialInsertionSortScan, hlt], le_refl _, hib,
      fun k h1 h2 => by omega, fun h => absurd h hlt⟩
  | succ fuel ih =>
    intro i hi hib hf
    rw [partialInsertionSortScan]
    by_cases hlt : i < b
    · rw [if_pos hlt, Less_eq ht (by omega) (by omega), Outcome.bind_ok]
      by_cases hl : ts data i < ts data (i - 1)
      · rw [decide_eq_true hl]
        exact ⟨i, by simp, le_refl _, hib, fun k h1 h2 => by omega, fun _ => hl⟩
      · rw [decide_eq_false hl]
        obtain ⟨i1, e, p1, p2, p3, p4⟩ := ih (i + 1) (by omega) (by omega) (by omega)
        refine ⟨i1, by simpa using e, by omega, p2, fun k hk1 hk2 => ?_, p4⟩
        by_cases hk : k = i
        · subst hk; exact hl
        · exact p3 k (by omega) hk2
    · rw [if_neg hlt]
      exact ⟨i, rfl, le_refl _, hib, fun k h1 h2 => by omega, fun h => absurd h hlt⟩

theorem partialInsertionSortShiftLeft_eq (a b : Nat) : ∀ (j : Nat) (data : JobSort),
    Timed data → a ≤ j → j < b → b ≤ data.Jobs.length → LowerBounded data a b →
    partialInsertionSortShiftLeft j data = insertionSortInner a j data := by
  intro j
  induction j with
  | zero => intro data _ _ _ _ _; rfl
  | succ j ih =>
    intro data ht haj hjb hb hlb
    rw [partialInsertionSortShiftLeft, insertionSortInner, if_pos (by omega),
      Less_eq ht (by omega) (by omega), Outcome.bind_ok, Outcome.bind_ok]
    by_cases hgt : j + 1 > a
    · rw [if_pos hgt]
      by_cases hl : ts data (j + 1) < ts data j
      · rw [decide_eq_true hl]
        simp only [Bool.not_true, if_true, Bool.false_eq_true, if_false]
        rw [Swap_eq (by omega) (by omega), Outcome.bind_ok, Outcome.bind_ok]
        have hre : Rearranged a b data ⟨swapped data.Jobs (j + 1) j⟩ :=
          Rearranged.swap data (by omega) (by omega) (by omega) (by omega) hb
        exact ih _ (hre.timed ht) (by omega) (by omega) (by rw [length_swapped]; exact hb)
          (hlb.rearranged hre)
      · rw [decide_eq_false hl]
        simp
    · rw [if_neg hgt]
      have ha : a = j + 1 := by omega
      rcases hlb with h | h
      · omega
      · have := h (j + 1) (by omega) hjb
        rw [ha] at this
        simp only [Nat.add_sub_cancel] at this
        rw [decide_eq_false (not_lt.2 this)]
        simp

theorem partialInsertionSortShiftRight_spec (lo b : Nat) : ∀ (fuel j : Nat) (data : JobSort),
    Timed data → lo < j → b ≤ data.Jobs.length → b - j ≤ fuel →
    ∃ d, partialInsertionSortShiftRight b fuel j data = .ok d ∧ Rearranged lo b data d := by
  intro fuel
  induction fuel with
  | zero =>
    intro j data _ _ _ hf
    have hlt : ¬ j < b := by omega
    exact ⟨data, by simp [partialInsertionSortShiftRight, hlt], Rearranged.refl _ _ _⟩
  | succ fuel ih =>
    intro j data ht hj hb hf
    rw [partialInsertionSortShiftRight]
    by_cases hlt : j < b
    · rw [if_pos hlt, Less_eq ht (by omega) (by omega), Outcome.bind_ok]
      by_cases hl : ts data j < ts data (j - 1)
      · rw [decide_eq_true hl]
        simp only [Bool.not_true, Bool.false_eq_true, if_false]
        rw [Swap_eq (by omega) (by omega), Outcome.bind_ok]
        have hre : Rearranged lo b data ⟨swapped data.Jobs j (j - 1)⟩ :=
          Rearranged.swap data (by omega) (by omega) (by omega) (by omega) hb
        obtain ⟨d, e, r⟩ := ih (j + 1) _ (hre.timed ht) (by omega)
          (by rw [length_swapped]; exact hb) (by omega)
        exact ⟨d, e, hre.trans r⟩
      · rw [decide_eq_false hl]
        exact ⟨data, by simp, Rearranged.refl _ _ _⟩
    · rw [if_neg hlt]
      exact ⟨data, rfl, Rearranged.refl _ _ _⟩

theorem partialInsertionSortSteps_spec (a b : Nat) : ∀ (steps : Nat) (data : JobSort) (i : Nat),
    Timed data → a < i → i ≤ b → b ≤ data.Jobs.length → LowerBounded data a b →
    SortedOn data a i →
    ∃ d r, partialInsertionSortSteps a b steps data i = .ok (d, r) ∧ Rearranged a b data d ∧
      (r = true → SortedOn d a b) := by
  intro steps
  induction steps with
  | zero =>
    intro data i _ _ _ _ _ _
    exact ⟨data, false, rfl, Rearranged.refl _ _ _, fun h => by cases h⟩
  | succ steps ih =>
    intro data i ht hai hib hb hlb hs
    rw [partialInsertionSortSteps]
    obtain ⟨i1, e1, p1, p2, p3, p4⟩ :=
      partialInsertionSortScan_spec data ht b hb (b - i) i (by omega) hib (le_refl _)
    rw [e1, Outcome.bind_ok]
    have hs1 : SortedOn data a i1 := hs.extend p3
    by_cases hend : i1 = b
    · rw [if_pos hend]
      exact ⟨data, true, rfl, Rearranged.refl _ _ _, fun _ => hend ▸ hs1⟩
    · rw [if_neg hend]
      by_cases hshort : b - a < 50
      · rw [if_pos hshort]
        exact ⟨data, false, rfl, Rearranged.refl _ _ _, fun h => by cases h⟩
      · rw [if_neg hshort]
        have hi1 : i1 < data.Jobs.length := by omega
        have hi0 : i1 - 1 < data.Jobs.length := by omega
        rw [Swap_eq hi1 hi0, Outcome.bind_ok]
        have hre1 : Rearranged a b data ⟨swapped data.Jobs i1 (i1 - 1)⟩ :=
          Rearranged.swap data (by omega) (by omega) (by omega) (by omega) hb
        have hsd1 : SortedOn ⟨swapped data.Jobs i1 (i1 - 1)⟩ a (i1 - 1) := by
          intro p q hp hpq hq
          rw [ts_swapped hi1 hi0 p, ts_swapped hi1 hi0 q, if_neg (by omega : ¬ p = i1 - 1),
            if_neg (by omega : ¬ p = i1), if_neg (by omega : ¬ q = i1 - 1),
            if_neg (by omega : ¬ q = i1)]
          exact hs1 p q hp hpq (by omega)
        generalize (⟨swapped data.Jobs i1 (i1 - 1)⟩ : JobSort) = d1 at hre1 hsd1 ⊢
        have ht1 : Timed d1 := hre1.timed ht
        have hl1 : d1.Jobs.length = data.Jobs.length := hre1.length_eq
        have hlb1 : LowerBounded d1 a b := hlb.rearranged hre1
        -- shifting the smaller one to the left
        have hleft : ∃ d2, (if i1 - a ≥ 2 then partialInsertionSortShiftLeft (i1 - 1) d1
            else Outcome.ok d1) = .ok d2 ∧ Rearranged a b d1 d2 ∧ SortedOn d2 a i1 := by
          by_cases h2 : i1 - a ≥ 2
          · rw [if_pos h2, partialInsertionSortShiftLeft_eq a b (i1 - 1) d1 ht1 (by omega)
              (by omega) (by omega) hlb1]
            obtain ⟨d2, e2, r2, s2, _⟩ := insertionSortInner_spec a (i1 - 1) (i1 - 1) d1 ht1
              (by omega) (le_refl _) (by omega)
              (fun p q hp hpq hq hpj hqj => hsd1 p q hp hpq (by omega))
              (fun q hq1 hq2 => by omega)
            have e3 : i1 - 1 + 1 = i1 := by omega
            rw [e3] at r2 s2
            exact ⟨d2, e2, r2.mono (le_refl _) (by omega), s2⟩
          · rw [if_neg h2]
            refine ⟨d1, rfl, Rearranged.refl _ _ _, ?_⟩
            intro p q hp hpq hq
            have : p = q := by omega
            subst this; exact le_refl _
        obtain ⟨d2, e2, r2, s2⟩ := hleft
        rw [e2, Outcome.bind_ok]
        have ht2 : Timed d2 := r2.timed ht1
        have hl2 : d2.Jobs.length = data.Jobs.length := by rw [r2.length_eq, hl1]
        -- shifting the greater one to the right
        have hright : ∃ d3, (if b - i1 ≥ 2 then
            partialInsertionSortShiftRight b (b - (i1 + 1)) (i1 + 1) d2
            else Outcome.ok d2) = .ok d3 ∧ Rearranged i1 b d2 d3 := by
          by_cases h2 : b - i1 ≥ 2
          · rw [if_pos h2]
            exact partialInsertionSortShiftRight_spec i1 b (b - (i1 + 1)) (i1 + 1) d2 ht2
              (by omega) (by omega) (le_refl _)
          · rw [if_neg h2]
            exact ⟨d2, rfl, Rearranged.refl _ _ _⟩
        obtain ⟨d3, e3, r3⟩ := hright
        rw [e3, Outcome.bind_ok]
        have r3' : Rearranged a b d2 d3 := r3.mono (by omega) (le_refl _)
        have hre3 : Rearranged a b data d3 := (hre1.trans r2).trans r3'
        obtain ⟨d, r, e, rr, rs⟩ := ih d3 i1 (hre3.timed ht) (by omega) p2
          (by rw [hre3.length_eq]; exact hb) (hlb.rearranged hre3) (s2.rearranged_above r3)
        exact ⟨d, r, e, hre3.trans rr, rs⟩

theorem partialInsertionSort_spec (data : JobSort) (a b : Nat) (ht : Timed data) (hab : a < b)
    (hb : b ≤ data.Jobs.length) (hlb : LowerBounded data a b) :
    ∃ d r, partialInsertionSort data a b = .ok (d, r) ∧ Rearranged a b data d ∧
      (r = true → SortedOn d a b) :=
  partialInsertionSortSteps_spec a b 5 data (a + 1) ht (by omega) (by omega) hb hlb
    (fun p q hp hpq hq => by
      have : p = q := by omega
      subst this; exact le_refl _)

/-! ## `heapSort` -/

theorem siftDownLoop_spec (hi first lo0 : Nat) : ∀ (fuel root : Nat) (data : JobSort),
    Timed data → first + hi ≤ data.Jobs.length → lo0 ≤ root → hi - root ≤ fuel →
    (∀ r c, lo0 ≤ r → r ≠ root → (c = 2 * r + 1 ∨ c = 2 * r + 2) → c < hi →
      ts data (first + c) ≤ ts data (first + r)) →
    (∀ r c, lo0 ≤ r → (root = 2 * r + 1 ∨ root = 2 * r + 2) →
      (c = 2 * root + 1 ∨ c = 2 * root + 2) → c < hi →
      ts data (first + c) ≤ ts data (first + r)) →
    ∃ d, siftDownLoop hi first fuel root data = .ok d ∧
      Rearranged (first + lo0) (first + hi) data d ∧ HeapFrom d first lo0 hi := by
  intro fuel
  induction fuel with
  | zero =>
    intro root data _ _ _ hf h1 _
    have hleaf : 2 * root + 1 ≥ hi := by omega
    refine ⟨data, by simp [siftDownLoop, hleaf], Rearranged.refl _ _ _, ?_⟩
    intro r c hr hc hch
    exact h1 r c hr (by omega) hc hch
  | succ fuel ih =>
    intro root data ht hlen hlo hf h1 h2
    rw [siftDownLoop]
    by_cases hleaf : 2 * root + 1 ≥ hi
    · rw [if_pos hleaf]
      refine ⟨data, rfl, Rearranged.refl _ _ _, ?_⟩
      intro r c hr hc hch
      exact h1 r c hr (by omega) hc hch
    · rw [if_neg hleaf]
      have hchild : ∃ cb, (if 2 * root + 1 + 1 < hi then
            data.Less (first + (2 * root + 1)) (first + (2 * root + 1) + 1)
          else Outcome.ok false) = .ok cb ∧
          ∀ c, (c = 2 * root + 1 ∨ c = 2 * root + 2) → c < hi →
            ts data (first + c) ≤
              ts data (first + (if cb = true then 2 * root + 1 + 1 else 2 * root + 1)) := by
        by_cases h2c : 2 * root + 1 + 1 < hi
        · rw [if_pos h2c, Less_eq ht (by omega) (by omega)]
          refine ⟨_, rfl, ?_⟩
          intro c hc hch
          by_cases hl : ts data (first + (2 * root + 1)) < ts data (first + (2 * root + 1) + 1)
          · rw [decide_eq_true hl, if_pos rfl]
            rcases hc with hc | hc
            · subst hc; exact le_of_lt hl
            · subst hc; exact le_refl _
          · rw [decide_eq_false hl]
            simp only [Bool.false_eq_true, if_false]
            rcases hc with hc | hc
            · subst hc; exact le_refl _
            · subst hc; exact not_lt.1 hl
        · rw [if_neg h2c]
          refine ⟨false, rfl, ?_⟩
          intro c hc hch
          simp only [Bool.false_eq_true, if_false]
          rcases hc with hc | hc
          · subst hc; exact le_refl _
          · omega
      obtain ⟨cb, ecb, hmax⟩ := hchild
      rw [ecb, Outcome.bind_ok]
      have hcr : (if cb = true then 2 * root + 1 + 1 else 2 * root + 1) = 2 * root + 1 ∨
          ((if cb = true then 2 * root + 1 + 1 else 2 * root + 1) = 2 * root + 2 ∧
            2 * root + 1 + 1 < hi) := by
        by_cases h2c : 2 * root + 1 + 1 < hi
        · split_ifs
          · exact Or.inr ⟨rfl, h2c⟩
          · exact Or.inl rfl
        · rw [if_neg h2c] at ecb
          cases ecb
          exact Or.inl (by simp)
      dsimp only
      generalize (if cb = true then 2 * root + 1 + 1 else 2 * root + 1) = child at hmax hcr ⊢
      have hchi : child < hi := by omega
      rw [Less_eq ht (by omega) (by omega), Outcome.bind_ok]
      by_cases hl : ts data (first + root) < ts data (first + child)
      · rw [decide_eq_true hl]
        simp only [Bool.not_true, Bool.false_eq_true, if_false]
        have hrl : first + root < data.Jobs.length := by omega
        have hcl : first + child < data.Jobs.length := by omega
        rw [Swap_eq hrl hcl, Outcome.bind_ok]
        have hre : Rearranged (first + lo0) (first + hi) data
            ⟨swapped data.Jobs (first + root) (first + child)⟩ :=
          Rearranged.swap data (by omega) (by omega) (by omega) (by omega) hlen
        have hts : ∀ x, ts ⟨swapped data.Jobs (first + root) (first + child)⟩ (first + x) =
            if x = child then ts data (first + root)
            else if x = root then ts data (first + child) else ts data (first + x) := by
          intro x
          rw [ts_swapped hrl hcl]
          simp only [Nat.add_left_cancel_iff]
        obtain ⟨d, e, r, h⟩ := ih child ⟨swapped data.Jobs (first + root) (first + child)⟩
          (hre.timed ht) (by rw [length_swapped]; exact hlen) (by omega) (by omega)
          (by
            intro r c hr hrc hc hch
            rw [hts c, hts r, if_neg hrc]
            by_cases hrr : r = root
            · rw [if_pos hrr]
              by_cases hcc : c = child
              · rw [if_pos hcc]; exact le_of_lt hl
              · rw [if_neg hcc, if_neg (by omega : ¬ c = root)]
                exact hmax c (by omega) hch
            · rw [if_neg hrr, if_neg (by omega : ¬ c = child)]
              by_cases hcr2 : c = root
              · rw [if_pos hcr2]
                exact h2 r child hr (by omega) (by omega) hchi
              · rw [if_neg hcr2]
                exact h1 r c hr hrr hc hch)
          (by
            intro r c hr hrc hc hch
            have hrr : r = root := by omega
            rw [hts c, hts r, if_neg (by omega : ¬ c = child), if_neg (by omega : ¬ c = root),
              if_neg (by omega : ¬ r = child), if_pos hrr]
            exact h1 child c (by omega) (by omega) hc hch)
        exact ⟨d, e, hre.trans r, h⟩
      · rw [decide_eq_false hl]
        refine ⟨data, by simp, Rearranged.refl _ _ _, ?_⟩
        intro r c hr hc hch
        by_cases hrr : r = root
        · subst hrr
          exact le_trans (hmax c hc hch) (not_lt.1 hl)
        · exact h1 r c hr hrr hc hch

theorem heapSortBuild_spec (hi first : Nat) : ∀ (n : Nat) (data : JobSort), Timed data →
    first + hi ≤ data.Jobs.length → HeapFrom data first n hi →
    ∃ d, heapSortBuild hi first n data = .ok d ∧ Rearranged first (first + hi) data d ∧
      HeapFrom d first 0 hi := by
  intro n
  induction n with
  | zero => intro data _ _ h; exact ⟨data, rfl, Rearranged.refl _ _ _, h⟩
  | succ n ih =>
    intro data ht hlen h
    rw [heapSortBuild, siftDown]
    obtain ⟨d1, e1, r1, h1⟩ := siftDownLoop_spec hi first n hi n data ht hlen (le_refl _)
      (by omega) (fun r c hr hrn hc hch => h r c (by omega) hc hch)
      (fun r c hr hrn hc hch => by omega)
    rw [e1, Outcome.bind_ok]
    have r1' : Rearranged first (first + hi) data d1 := r1.mono (by omega) (le_refl _)
    obtain ⟨d, e, r, hh⟩ := ih d1 (r1.timed ht) (by rw [r1.length_eq]; exact hlen) h1
    exact ⟨d, e, r1'.trans r, hh⟩

theorem HeapFrom.le_root {s : JobSort} {first hi : Nat} (h : HeapFrom s first 0 hi) :
    ∀ k, k < hi → ts s (first + k) ≤ ts s (first + 0) := by
  intro k
  induction k using Nat.strong_induction_on with
  | _ k ih =>
    intro hk
    by_cases h0 : k = 0
    · subst h0; exact le_refl _
    · have hp := ih ((k - 1) / 2) (by omega) (by omega)
      exact le_trans (h ((k - 1) / 2) k (Nat.zero_le _) (by omega) hk) hp

theorem heapSortPop_spec (hi first : Nat) : ∀ (i : Nat) (data : JobSort), Timed data →
    first + hi ≤ data.Jobs.length → i ≤ hi → HeapFrom data first 0 i →
    SortedOn data (first + i) (first + hi) →
    (∀ p q, p < i → i ≤ q → q < hi → ts data (first + p) ≤ ts data (first + q)) →
    ∃ d, heapSortPop first i data = .ok d ∧ Rearranged first (first + hi) data d ∧
      SortedOn d first (first + hi) := by
  intro i
  induction i with
  | zero =>
    intro data _ _ _ _ hs _
    exact ⟨data, rfl, Rearranged.refl _ _ _, hs⟩
  | succ i ih =>
    intro data ht hlen hi1 hheap hs hcross
    rw [heapSortPop]
    have hfl : first < data.Jobs.length := by omega
    have hil : first + i < data.Jobs.length := by omega
    rw [Swap_eq hfl hil, Outcome.bind_ok, siftDown]
    have hre1 : Rearranged first (first + hi) data ⟨swapped data.Jobs first (first + i)⟩ :=
      Rearranged.swap data (le_refl _) (by omega) (by omega) (by omega) hlen
    have hts : ∀ x, ts ⟨swapped data.Jobs first (first + i)⟩ (first + x) =
        if x = i then ts data (first + 0)
        else if x = 0 then ts data (first + i) else ts data (first + x) := by
      intro x
      rw [ts_swapped hfl hil]
      by_cases hx : x = i
      · rw [if_pos (by omega), if_pos hx]; rfl
      · rw [if_neg (by omega), if_neg hx]
        by_cases hx0 : x = 0
        · rw [if_pos (by omega), if_pos hx0]
        · rw [if_neg (by omega), if_neg hx0]
    generalize (⟨swapped data.Jobs first (first + i)⟩ : JobSort) = d1 at hre1 hts ⊢
    have ht1 : Timed d1 := hre1.timed ht
    have hl1 : d1.Jobs.length = data.Jobs.length := hre1.length_eq
    have hmaxd := hheap.le_root
    obtain ⟨e, ee, re, he⟩ := siftDownLoop_spec i first 0 i 0 d1 ht1 (by omega) (le_refl _)
      (by omega)
      (by
        intro r c hr hr0 hc hch
        rw [hts c, hts r, if_neg (by omega : ¬ c = i), if_neg (by omega : ¬ c = 0),
          if_neg (by omega : ¬ r = i), if_neg hr0]
        exact hheap r c hr hc (by omega))
      (fun r c hr hrn hc hch => by omega)
    rw [ee, Outcome.bind_ok]
    simp only [Nat.add_zero] at re
    have re' : Rearranged first (first + hi) d1 e := re.mono (le_refl _) (by omega)
    have hte : ∀ q, i ≤ q → ts e (first + q) = ts d1 (first + q) :=
      fun q hq => re.ts_out (Or.inr (by omega))
    -- every entry of the heap prefix of `d1` is an entry of the heap of `data`
    have hpre : ∀ p, p < i → ∃ m, m < i + 1 ∧ ts e (first + p) = ts data (first + m) := by
      intro p hp
      obtain ⟨m, hm1, hm2, hm⟩ := re.ts_in (Nat.le_add_right first p) (by omega)
      obtain ⟨x, hx⟩ : ∃ x, m = first + x := ⟨m - first, by omega⟩
      subst hx
      rw [hm, hts x, if_neg (by omega : ¬ x = i)]
      by_cases hx0 : x = 0
      · rw [if_pos hx0]; exact ⟨i, by omega, rfl⟩
      · rw [if_neg hx0]; exact ⟨x, by omega, rfl⟩
    obtain ⟨d, ed, rd, sd⟩ := ih e (re.timed ht1) (by rw [re.length_eq, hl1]; exact hlen)
      (by omega) he
      (by
        intro p q hp hpq hq
        obtain ⟨x, hx⟩ : ∃ x, p = first + x := ⟨p - first, by omega⟩
        obtain ⟨y, hy⟩ : ∃ y, q = first + y := ⟨q - first, by omega⟩
        subst hx; subst hy
        rw [hte x (by omega), hte y (by omega), hts x, hts y]
        by_cases hxi : x = i
        · rw [if_pos hxi]
          by_cases hyi : y = i
          · rw [if_pos hyi]
          · rw [if_neg hyi, if_neg (by omega : ¬ y = 0)]
            exact hcross 0 y (by omega) (by omega) (by omega)
        · rw [if_neg hxi, if_neg (by omega : ¬ x = 0), if_neg (by omega : ¬ y = i),
            if_neg (by omega : ¬ y = 0)]
          exact hs (first + x) (first + y) (by omega) hpq hq)
      (by
        intro p q hp hq1 hq2
        obtain ⟨m, hm1, hm⟩ := hpre p hp
        rw [hm, hte q hq1, hts q]
        by_cases hqi : q = i
        · rw [if_pos hqi]; exact hmaxd m hm1
        · rw [if_neg hqi, if_neg (by omega : ¬ q = 0)]
          exact hcross m q hm1 (by omega) hq2)
    exact ⟨d, ed, (hre1.trans re').trans rd, sd⟩

theorem heapSort_spec (data : JobSort) (a b : Nat) (ht : Timed data) (hab : a ≤ b)
    (hb : b ≤ data.Jobs.length) :
    ∃ d, heapSort data a b = .ok d ∧ Rearranged a b data d ∧ SortedOn d a b := by
  unfold heapSort
  have hab' : a + (b - a) = b := by omega
  obtain ⟨d1, e1, r1, h1⟩ := heapSortBuild_spec (b - a) a ((b - a - 1) / 2 + 1) data ht
    (by omega) (fun r c hr hc hch => by omega)
  rw [e1, Outcome.bind_ok]
  obtain ⟨d, e, r, s⟩ := heapSortPop_spec (b - a) a (b - a) d1 (r1.timed ht)
    (by rw [r1.length_eq]; omega) (le_refl _) h1 (fun p q hp hpq hq => by omega)
    (fun p q hp hq1 hq2 => by omega)
  rw [hab'] at r1 r s
  exact ⟨d, e, r1.trans r, s⟩

/-! ## `pdqsort` and `sort.Sort` -/

theorem SortedOn.rearranged_off {s t : JobSort} {c1 c2 a b : Nat} (hs : SortedOn s c1 c2)
    (hr : Rearranged a b s t) (hoff : c2 ≤ a ∨ b ≤ c1) : SortedOn t c1 c2 := by
  intro p q hp hpq hq
  rw [hr.ts_out (by omega), hr.ts_out (by omega)]
  exact hs p q hp hpq hq

theorem LowerBounded.untouched {s t : JobSort} {c1 c2 a b : Nat}
    (h : LowerBounded s c1 c2) (hr : Rearranged a b s t) (hoff : c2 ≤ a ∨ b + 1 ≤ c1) :
    LowerBounded t c1 c2 := by
  rcases h with h | h
  · exact Or.inl h
  · refine Or.inr fun k hk1 hk2 => ?_
    rw [hr.ts_out (by omega), hr.ts_out (by omega)]
    exact h k hk1 hk2

theorem SortedOn.join {s : JobSort} {a mid b : Nat} (h1 : SortedOn s a mid)
    (h2 : SortedOn s (mid + 1) b) (hl : ∀ k, a ≤ k → k < mid → ts s k ≤ ts s mid)
    (hr : ∀ k, mid < k → k < b → ts s mid ≤ ts s k) : SortedOn s a b := by
  intro p q hp hpq hq
  by_cases hpm : p < mid
  · by_cases hqm : q < mid
    · exact h1 p q hp hpq hqm
    · by_cases hqe : q = mid
      · subst hqe; exact hl p hp hpm
      · exact le_trans (hl p hp hpm) (hr q (by omega) hq)
  · by_cases hpe : p = mid
    · subst hpe
      by_cases hqe : q = p
      · subst hqe; exact le_refl _
      · exact hr q (by omega) hq
    · exact h2 p q (by omega) hpq hq

theorem pdqsort_spec : ∀ (fuel : Nat) (data : JobSort) (a b limit : Nat)
    (wasBalanced wasPartitioned : Bool), Timed data → a ≤ b → b ≤ data.Jobs.length →
    b - a < fuel → LowerBounded data a b →
    ∃ d, pdqsort fuel data a b limit wasBalanced wasPartitioned = .ok d ∧
      Rearranged a b data d ∧ SortedOn d a b := by
  intro fuel
  induction fuel with
  | zero => intro data a b limit wb wp _ _ _ hf; omega
  | succ fuel ih =>
    intro data a b limit wb wp ht hab hb hf hlb
    rw [pdqsort]
    by_cases hsmall : b - a ≤ 12
    · rw [if_pos hsmall]
      obtain ⟨d, e, r, s, _⟩ := insertionSort_spec data a b ht hb
      exact ⟨d, e, r, s⟩
    rw [if_neg hsmall]
    by_cases hlim : limit = 0
    · rw [if_pos hlim]
      exact heapSort_spec data a b ht hab hb
    rw [if_neg hlim]
    -- breaking patterns
    obtain ⟨s1, e1, r1⟩ : ∃ s1, (if !wb then
        (breakPatterns data a b).bind fun d => Outcome.ok (d, limit - 1)
        else Outcome.ok (data, limit)) = .ok s1 ∧ Rearranged a b data s1.1 := by
      by_cases hwb : (!wb) = true
      · rw [if_pos hwb]
        obtain ⟨d, e, r⟩ := breakPatterns_spec data a b hb
        rw [e, Outcome.bind_ok]
        exact ⟨_, rfl, r⟩
      · rw [if_neg hwb]
        exact ⟨_, rfl, Rearranged.refl _ _ _⟩
    rw [e1, Outcome.bind_ok]
    have ht1 : Timed s1.1 := r1.timed ht
    have hl1 : s1.1.Jobs.length = data.Jobs.length := r1.length_eq
    -- choosing the pivot
    obtain ⟨pivot, hint, e2, hp1, hp2⟩ := choosePivot_spec s1.1 ht1 a b (by omega) (by omega)
    rw [e2, Outcome.bind_ok]
    obtain ⟨s2, e3, r2, hq1, hq2⟩ : ∃ s2, (if hint = sortedHint.decreasingHint then
        (reverseRange s1.1 a b).bind fun d =>
          Outcome.ok (d, (b - 1) - (pivot - a), sortedHint.increasingHint)
        else Outcome.ok (s1.1, pivot, hint)) = .ok s2 ∧ Rearranged a b s1.1 s2.1 ∧
        a ≤ s2.2.1 ∧ s2.2.1 < b := by
      by_cases hdec : hint = sortedHint.decreasingHint
      · rw [if_pos hdec]
        obtain ⟨d, e, r⟩ := reverseRange_spec s1.1 a b (by omega) (by omega)
        rw [e, Outcome.bind_ok]
        exact ⟨_, rfl, r, by show a ≤ b - 1 - (pivot - a); omega,
          by show b - 1 - (pivot - a) < b; omega⟩
      · rw [if_neg hdec]
        exact ⟨_, rfl, Rearranged.refl _ _ _, hp1, hp2⟩
    rw [e3, Outcome.bind_ok]
    have ra2 : Rearranged a b data s2.1 := r1.trans r2
    have ht2 : Timed s2.1 := ra2.timed ht
    have hl2 : s2.1.Jobs.length = data.Jobs.length := ra2.length_eq
    -- the slice may be sorted already
    obtain ⟨s3, e4, r3, hs3⟩ : ∃ s3, (if (wb && wp &&
          decide (s2.2.2 = sortedHint.increasingHint)) = true then
        partialInsertionSort s2.1 a b else Outcome.ok (s2.1, false)) = .ok s3 ∧
        Rearranged a b s2.1 s3.1 ∧ (s3.2 = true → SortedOn s3.1 a b) := by
      split_ifs
      · obtain ⟨d, r, e, rr, rs⟩ := partialInsertionSort_spec s2.1 a b ht2 (by omega)
          (by omega) (hlb.rearranged ra2)
        exact ⟨_, e, rr, rs⟩
      · exact ⟨_, rfl, Rearranged.refl _ _ _, fun h => by cases h⟩
    rw [e4, Outcome.bind_ok]
    have ra3 : Rearranged a b data s3.1 := ra2.trans r3
    have ht3 : Timed s3.1 := ra3.timed ht
    have hl3 : s3.1.Jobs.length = data.Jobs.length := ra3.length_eq
    have hlb3 : LowerBounded s3.1 a b := hlb.rearranged ra3
    by_cases hdone : s3.2 = true
    · rw [if_pos hdone]
      exact ⟨s3.1, rfl, ra3, hs3 hdone⟩
    rw [if_neg hdone]
    -- many duplicates of the entry before `a`
    obtain ⟨dup, e5, hdup⟩ : ∃ dup, (if a > 0 then
        (s3.1.Less (a - 1) s2.2.1).bind fun c => Outcome.ok (!c)
        else Outcome.ok false) = .ok dup ∧
        (dup = true → 0 < a ∧ ¬ ts s3.1 (a - 1) < ts s3.1 s2.2.1) := by
      by_cases ha : a > 0
      · rw [if_pos ha, Less_eq ht3 (by omega) (by omega), Outcome.bind_ok]
        refine ⟨_, rfl, fun h => ⟨ha, ?_⟩⟩
        simpa using h
      · rw [if_neg ha]
        exact ⟨false, rfl, fun h => by cases h⟩
    rw [e5, Outcome.bind_ok]
    by_cases hd : dup = true
    · rw [if_pos hd]
      obtain ⟨ha0, hge⟩ := hdup hd
      obtain ⟨d, mid, e6, r6, hm1, hm2, hle, hgt⟩ :=
        partitionEqual_spec s3.1 a b s2.2.1 ht3 hq1 hq2 (by omega)
      rw [e6, Outcome.bind_ok]
      have ra6 : Rearranged a b data d := ra3.trans r6
      have hlb6 : LowerBounded d a b := hlb.rearranged ra6
      have hlow : ∀ k, a ≤ k → k < b → ts s3.1 s2.2.1 ≤ ts d k := by
        intro k hk1 hk2
        rcases hlb6 with h | h
        · omega
        · have h1 := h k hk1 hk2
          rw [r6.ts_out (Or.inl (by omega))] at h1
          exact le_trans (not_lt.1 hge) h1
      obtain ⟨d', e7, r7, s7⟩ := ih d mid b s1.2 wb wp (ra6.timed ht) hm2
        (by rw [ra6.length_eq]; exact hb) (by omega)
        (Or.inr fun k hk1 hk2 =>
          le_trans (hle (mid - 1) (by omega) (by omega)) (le_of_lt (hgt k hk1 hk2)))
      refine ⟨d', e7, ra6.trans (r7.mono (by omega) (le_refl _)), ?_⟩
      intro p q hp hpq hq
      by_cases hpm : mid ≤ p
      · exact s7 p q hpm hpq hq
      · rw [r7.ts_out (Or.inl (by omega))]
        by_cases hqm : mid ≤ q
        · obtain ⟨m, hm3, hm4, hm⟩ := r7.ts_in hqm hq
          rw [hm]
          exact le_trans (hle p hp (by omega)) (le_of_lt (hgt m hm3 hm4))
        · rw [r7.ts_out (Or.inl (by omega))]
          exact le_trans (hle p hp (by omega)) (hlow q (by omega) hq)
    rw [if_neg hd]
    obtain ⟨d, mid, ap, e6, r6, hm1, hm2, hlt, hge⟩ :=
      partition_spec s3.1 a b s2.2.1 ht3 hq1 hq2 (by omega)
    rw [e6, Outcome.bind_ok]
    dsimp only
    have ra6 : Rearranged a b data d := ra3.trans r6
    have ht6 : Timed d := ra6.timed ht
    have hl6 : d.Jobs.length = data.Jobs.length := ra6.length_eq
    have hlb6 : LowerBounded d a b := hlb.rearranged ra6
    have hlbL : LowerBounded d a mid := by
      rcases hlb6 with h | h
      · exact Or.inl h
      · exact Or.inr fun k hk1 hk2 => h k hk1 (by omega)
    have hlbR : LowerBounded d (mid + 1) b :=
      Or.inr fun k hk1 hk2 => by
        simp only [Nat.add_sub_cancel]
        exact hge k (by omega) hk2
    -- both orders of the two recursive sorts end in the same four facts
    have fin : ∀ d2 : JobSort, Rearranged a b d d2 → ts d2 mid = ts d mid →
        (∀ k, a ≤ k → k < mid → ∃ m, a ≤ m ∧ m < mid ∧ ts d2 k = ts d m) →
        (∀ k, mid < k → k < b → ∃ m, mid < m ∧ m < b ∧ ts d2 k = ts d m) →
        SortedOn d2 a mid → SortedOn d2 (mid + 1) b →
        Rearranged a b data d2 ∧ SortedOn d2 a b := by
      intro d2 hr hmid hL hR sL sR
      refine ⟨ra6.trans hr, sL.join sR ?_ ?_⟩
      · intro k hk1 hk2
        obtain ⟨m, h1, h2, h3⟩ := hL k hk1 hk2
        rw [h3, hmid]
        exact le_of_lt (hlt m h1 h2)
      · intro k hk1 hk2
        obtain ⟨m, h1, h2, h3⟩ := hR k hk1 hk2
        rw [h3, hmid]
        exact hge m h1 h2
    by_cases hside : mid - a < b - mid
    · rw [if_pos hside]
      obtain ⟨d1, e7, r7, s7⟩ := ih d a mid s1.2 true true ht6 hm1 (by omega) (by omega) hlbL
      rw [e7, Outcome.bind_ok]
      obtain ⟨d2, e8, r8, s8⟩ := ih d1 (mid + 1) b s1.2 (decide (mid - a ≥ (b - a) / 8)) ap
        (r7.timed ht6) (by omega) (by rw [r7.length_eq]; omega) (by omega)
        (hlbR.untouched r7 (Or.inr (by omega)))
      obtain ⟨f1, f2⟩ := fin d2
        ((r7.mono (le_refl _) (by omega)).trans (r8.mono (by omega) (le_refl _)))
        (by rw [r8.ts_out (Or.inl (by omega)), r7.ts_out (Or.inr (le_refl _))])
        (by
          intro k hk1 hk2
          rw [r8.ts_out (Or.inl (by omega))]
          exact r7.ts_in hk1 hk2)
        (by
          intro k hk1 hk2
          obtain ⟨m, h1, h2, h3⟩ := r8.ts_in (by omega : mid + 1 ≤ k) hk2
          exact ⟨m, by omega, h2, by rw [h3, r7.ts_out (Or.inr (by omega))]⟩)
        (s7.rearranged_off r8 (Or.inl (by omega))) s8
      exact ⟨d2, e8, f1, f2⟩
    · rw [if_neg hside]
      obtain ⟨d1, e7, r7, s7⟩ := ih d (mid + 1) b s1.2 true true ht6 (by omega) (by omega)
        (by omega) hlbR
      rw [e7, Outcome.bind_ok]
      obtain ⟨d2, e8, r8, s8⟩ := ih d1 a mid s1.2 (decide (b - mid ≥ (b - a) / 8)) ap
        (r7.timed ht6) hm1 (by rw [r7.length_eq]; omega) (by omega)
        (hlbL.untouched r7 (Or.inl (by omega)))
      obtain ⟨f1, f2⟩ := fin d2
        ((r7.mono (by omega) (le_refl _)).trans (r8.mono (le_refl _) (by omega)))
        (by rw [r8.ts_out (Or.inr (le_refl _)), r7.ts_out (Or.inl (by omega))])
        (by
          intro k hk1 hk2
          obtain ⟨m, h1, h2, h3⟩ := r8.ts_in hk1 hk2
          exact ⟨m, h1, h2, by rw [h3, r7.ts_out (Or.inl (by omega))]⟩)
        (by
          intro k hk1 hk2
          rw [r8.ts_out (Or.inr (by omega))]
          obtain ⟨m, h1, h2, h3⟩ := r7.ts_in (by omega : mid + 1 ≤ k) hk2
          exact ⟨m, by omega, h2, h3⟩)
        s8 (s7.rearranged_off r8 (Or.inr (by omega)))
      exact ⟨d2, e8, f1, f2⟩

theorem LowerBounded.zero (s : JobSort) (b : Nat) : LowerBounded s 0 b := Or.inl rfl

theorem bitsLen_ne_zero {n : Nat} (h : n ≠ 0) : bitsLen n ≠ 0 := by
  unfold bitsLen
  rw [if_neg h]
  omega

/-- Whenever every job has a timestamp, `sort.Sort` returns: it neither panics nor
exhausts a loop budget, and its result holds the same jobs in non-decreasing order of
creation time. -/
theorem Sort_spec (data : JobSort) (ht : Timed data) :
    ∃ d, sort.Sort data = .ok d ∧ Rearranged 0 data.Jobs.length data d ∧
      SortedOn d 0 data.Jobs.length := by
  unfold sort.Sort JobSort.Len
  by_cases h1 : data.Jobs.length ≤ 1
  · rw [if_pos h1]
    refine ⟨data, rfl, Rearranged.refl _ _ _, ?_⟩
    intro p q hp hpq hq
    have : p = q := by omega
    subst this; exact le_refl _
  · rw [if_neg h1]
    exact pdqsort_spec _ data 0 _ _ true true ht (Nat.zero_le _) (le_refl _) (by omega)
      (LowerBounded.zero _ _)

/-- On at most twelve jobs `sort.Sort` is an insertion sort, which keeps the jobs of
equal creation time in their input order. -/
theorem Sort_sameTies (data : JobSort) (ht : Timed data) (h12 : data.Jobs.length ≤ 12) :
    ∃ d, sort.Sort data = .ok d ∧ SameTies data d := by
  unfold sort.Sort JobSort.Len
  by_cases h1 : data.Jobs.length ≤ 1
  · rw [if_pos h1]
    exact ⟨data, rfl, SameTies.same _⟩
  · rw [if_neg h1, pdqsort, if_pos (by omega)]
    obtain ⟨d, e, _, _, st⟩ := insertionSort_spec data 0 data.Jobs.length ht (le_refl _)
    exact ⟨d, e, st⟩

/-! ### `sort.Sort` on a slice that is sorted already -/

theorem insertionSortInner_sorted (data : JobSort) (ht : Timed data) (a b i : Nat)
    (hs : SortedOn data a b) (hi : i < b) (hb : b ≤ data.Jobs.length) :
    insertionSortInner a i data = .ok data := by
  cases i with
  | zero => rfl
  | succ j =>
    rw [insertionSortInner]
    by_cases hgt : j + 1 > a
    · rw [if_pos hgt, Less_eq ht (by omega) (by omega), Outcome.bind_ok,
        decide_eq_false (not_lt.2 (hs j (j + 1) (by omega) (by omega) hi))]
      simp
    · rw [if_neg hgt]

theorem insertionSortOuter_sorted (data : JobSort) (ht : Timed data) (a b : Nat)
    (hs : SortedOn data a b) (hb : b ≤ data.Jobs.length) :
    ∀ (fuel i : Nat), b - i ≤ fuel → insertionSortOuter a b fuel i data = .ok data := by
  intro fuel
  induction fuel with
  | zero =>
    intro i hf
    have : ¬ i < b := by omega
    simp [insertionSortOuter, this]
  | succ fuel ih =>
    intro i hf
    rw [insertionSortOuter]
    by_cases hlt : i < b
    · rw [if_pos hlt, insertionSortInner_sorted data ht a b i hs hlt hb, Outcome.bind_ok]
      exact ih (i + 1) (by omega)
    · rw [if_neg hlt]

theorem order2_sorted (data : JobSort) (ht : Timed data) (a b : Nat)
    (hs : SortedOn data a b) (hb : b ≤ data.Jobs.length) (x y swaps : Nat) (hx : a ≤ x)
    (hxy : x ≤ y) (hy : y < b) : order2 data x y swaps = .ok (x, y, swaps) := by
  unfold order2
  rw [Less_eq ht (by omega) (by omega), Outcome.bind_ok,
    decide_eq_false (not_lt.2 (hs x y hx hxy hy))]
  simp

theorem median_sorted (data : JobSort) (ht : Timed data) (a b : Nat)
    (hs : SortedOn data a b) (hb : b ≤ data.Jobs.length) (x y z swaps : Nat) (hx : a ≤ x)
    (hxy : x ≤ y) (hyz : y ≤ z) (hz : z < b) : median data x y z swaps = .ok (y, swaps) := by
  unfold median
  rw [order2_sorted data ht a b hs hb x y swaps hx hxy (by omega), Outcome.bind_ok]
  dsimp only
  rw [order2_sorted data ht a b hs hb y z swaps (by omega) hyz hz, Outcome.bind_ok]
  dsimp only
  rw [order2_sorted data ht a b hs hb x y swaps hx hxy (by omega), Outcome.bind_ok]

theorem choosePivot_sorted (data : JobSort) (ht : Timed data) (a b : Nat)
    (hs : SortedOn data a b) (hb : b ≤ data.Jobs.length) (hab : a < b) :
    ∃ pivot, choosePivot data a b = .ok (pivot, sortedHint.increasingHint) := by
  unfold choosePivot
  dsimp only
  by_cases h8 : b - a ≥ 8
  · rw [if_pos h8]
    by_cases h50 : b - a ≥ 50
    · rw [if_pos h50]
      unfold medianAdjacent
      rw [median_sorted data ht a b hs hb _ _ _ 0 (by omega) (by omega) (by omega) (by omega),
        Outcome.bind_ok]
      dsimp only
      rw [median_sorted data ht a b hs hb _ _ _ 0 (by omega) (by omega) (by omega) (by omega),
        Outcome.bind_ok]
      dsimp only
      rw [median_sorted data ht a b hs hb _ _ _ 0 (by omega) (by omega) (by omega) (by omega),
        Outcome.bind_ok, Outcome.bind_ok]
      dsimp only
      rw [median_sorted data ht a b hs hb _ _ _ 0 (by omega) (by omega) (by omega) (by omega),
        Outcome.bind_ok]
      exact ⟨_, rfl⟩
    · rw [if_neg h50, Outcome.bind_ok]
      dsimp only
      rw [median_sorted data ht a b hs hb _ _ _ 0 (by omega) (by omega) (by omega) (by omega),
        Outcome.bind_ok]
      exact ⟨_, rfl⟩
  · rw [if_neg h8, Outcome.bind_ok]
    exact ⟨_, rfl⟩

theorem partialInsertionSort_sorted (data : JobSort) (ht : Timed data) (a b : Nat)
    (hs : SortedOn data a b) (hb : b ≤ data.Jobs.length) (hab : a < b) :
    partialInsertionSort data a b = .ok (data, true) := by
  unfold partialInsertionSort
  rw [partialInsertionSortSteps]
  obtain ⟨i1, e1, p1, p2, p3, p4⟩ :=
    partialInsertionSortScan_spec data ht b hb (b - (a + 1)) (a + 1) (by omega) (by omega)
      (le_refl _)
  rw [e1, Outcome.bind_ok]
  have : i1 = b := by
    by_contra hne
    have hlt : i1 < b := by omega
    exact absurd (p4 hlt) (not_lt.2 (hs (i1 - 1) i1 (by omega) (by omega) hlt))
  rw [if_pos this]

/-- A slice already in non-decreasing order of creation time is returned by
`sort.Sort` as it is. -/
theorem Sort_sorted (data : JobSort) (ht : Timed data)
    (hs : SortedOn data 0 data.Jobs.length) : sort.Sort data = .ok data := by
  unfold sort.Sort JobSort.Len
  by_cases h1 : data.Jobs.length ≤ 1
  · rw [if_pos h1]
  · rw [if_neg h1, pdqsort]
    by_cases h12 : data.Jobs.length - 0 ≤ 12
    · rw [if_pos h12]
      exact insertionSortOuter_sorted data ht 0 _ hs (le_refl _) _ _ (by omega)
    · rw [if_neg h12, if_neg (bitsLen_ne_zero (by omega))]
      simp only [Bool.not_true, Bool.false_eq_true, if_false, Outcome.bind_ok]
      obtain ⟨pivot, e⟩ := choosePivot_sorted data ht 0 _ hs (le_refl _) (by omega)
      rw [e, Outcome.bind_ok]
      simp only [reduceCtorEq, if_false, Outcome.bind_ok, Bool.and_self, decide_True,
        if_true]
      rw [partialInsertionSort_sorted data ht 0 _ hs (le_refl _) (by omega), Outcome.bind_ok]
      simp

/-! ## The page loop of `PipelineJobsWithSha` -/

theorem PipelineJobsWithShaLoop_pages (client : Client) (pid : String) (target : Int)
    (pages : List (List Job))
    (hresp : ∀ k (hk : k < pages.length), ∃ next : Int,
      client.ListPipelineJobs pid target ⟨pageParam k, 500⟩ =
        .ok (pages[k], ⟨next, (k : Int) + 1, pages.length⟩) ∧
      (k + 1 < pages.length → next = (k : Int) + 2)) :
    ∀ (n k fuel : Nat) (acc : List Job) (tr : List Request), k + n = pages.length → 0 < n →
      n ≤ fuel →
      PipelineJobsWithShaLoop client pid target fuel ⟨pageParam k, 500⟩ acc tr =
        .ok (.ok (acc ++ (pages.drop k).flatten), tr ++ pageRequests pid target k n) := by
  intro n
  induction n with
  | zero => intro k fuel acc tr _ h; omega
  | succ n ih =>
    intro k fuel acc tr hkn _ hf
    obtain ⟨fuel', rfl⟩ : ∃ f, fuel = f + 1 := ⟨fuel - 1, by omega⟩
    have hk : k < pages.length := by omega
    obtain ⟨next, e, hnext⟩ := hresp k hk
    rw [PipelineJobsWithShaLoop, e]
    dsimp only
    have hdrop : pages.drop k = pages[k] :: pages.drop (k + 1) := List.drop_eq_getElem_cons hk
    have hreq : pageRequests pid target k (n + 1) =
        Request.ListPipelineJobs pid target ⟨pageParam k, 500⟩ ::
          pageRequests pid target (k + 1) n := by
      simp [pageRequests, List.range'_succ]
    by_cases hlast : ((k : Int) + 1 = (pages.length : Int))
    · rw [if_pos hlast]
      have hn : n = 0 := by omega
      subst hn
      have hd : pages.drop (k + 1) = [] := List.drop_eq_nil_of_le (by omega)
      rw [hdrop, hd, hreq]
      simp only [pageRequests, List.flatten_cons, List.flatten_nil, List.append_nil,
        List.range'_zero, List.map_nil]
    · rw [if_neg hlast]
      have hn : 0 < n := by omega
      have hnx : next = pageParam (k + 1) := by
        rw [hnext (by omega)]
        simp [pageParam]
        omega
      rw [hnx, ih (k + 1) fuel' _ _ (by omega) hn (by omega), hdrop, hreq]
      simp only [List.flatten_cons, List.append_assoc, List.singleton_append]

/-- The page loop sends only job-listing requests: no request of another kind is
added to the ones sent before. -/
theorem PipelineJobsWithShaLoop_trace (client : Client) (pid : String) (target : Int) :
    ∀ (fuel : Nat) (opts : ListJobsOptions) (acc : List Job) (tr : List Request)
      (r : Except Error (List Job)) (tr1 : List Request),
      PipelineJobsWithShaLoop client pid target fuel opts acc tr = .ok (r, tr1) →
      ∀ q ∈ tr1, q ∈ tr ∨ ∃ o, q = Request.ListPipelineJobs pid target o := by
  intro fuel
  induction fuel with
  | zero => intro opts acc tr r tr1 h; simp [PipelineJobsWithShaLoop] at h
  | succ fuel ih =>
    intro opts acc tr r tr1 h q hq
    rw [PipelineJobsWithShaLoop] at h
    cases hc : client.ListPipelineJobs pid target opts with
    | error err =>
      rw [hc] at h
      simp only [Outcome.ok.injEq, Prod.mk.injEq] at h
      obtain ⟨_, rfl⟩ := h
      rcases List.mem_append.1 hq with h1 | h1
      · exact Or.inl h1
      · exact Or.inr ⟨opts, by simpa using h1⟩
    | ok v =>
      obtain ⟨jobs, resp⟩ := v
      rw [hc] at h
      dsimp only at h
      by_cases hlast : resp.CurrentPage = resp.TotalPages
      · rw [if_pos hlast] at h
        simp only [Outcome.ok.injEq, Prod.mk.injEq] at h
        obtain ⟨_, rfl⟩ := h
        rcases List.mem_append.1 hq with h1 | h1
        · exact Or.inl h1
        · exact Or.inr ⟨opts, by simpa using h1⟩
      · rw [if_neg hlast] at h
        rcases ih _ _ _ _ _ h q hq with h1 | h1
        · rcases List.mem_append.1 h1 with h2 | h2
          · exact Or.inl h2
          · exact Or.inr ⟨opts, by simpa using h2⟩
        · exact Or.inr h1

/-- A transport that answers the first request with `CurrentPage = 1`,
`TotalPages = 0` and `NextPage = 0` keeps the page loop running for ever: no budget of
passes is enough. -/
theorem PipelineJobsWithShaLoop_zero_pages (client : Client) (pid : String) (target : Int)
    (jobs : List Job)
    (h : client.ListPipelineJobs pid target ⟨0, 500⟩ = .ok (jobs, ⟨0, 1, 0⟩)) :
    ∀ (fuel : Nat) (acc : List Job) (tr : List Request),
      PipelineJobsWithShaLoop client pid target fuel ⟨0, 500⟩ acc tr = .outOfFuel := by
  intro fuel
  induction fuel with
  | zero => intro acc tr; rfl
  | succ fuel ih =>
    intro acc tr
    rw [PipelineJobsWithShaLoop, h]
    dsimp only
    rw [if_neg (by decide)]
    exact ih _ _

/-! ## Job selection -/

theorem selectStep_job_of_ne {name : String} (st : Selection) {j : Job} (h : j.Name ≠ name) :
    (selectStep name st j).job = st.job := by
  unfold selectStep
  simp only [h, if_false]
  split_ifs <;> rfl

theorem selectStep_job_of_eq {name : String} (st : Selection) {j : Job} (h : j.Name = name) :
    (selectStep name st j).job = some j := by
  unfold selectStep
  simp [h]

theorem foldl_selectStep_job_of_ne {name : String} (l : List Job) (st : Selection)
    (h : ∀ x ∈ l, x.Name ≠ name) : (l.foldl (selectStep name) st).job = st.job := by
  induction l generalizing st with
  | nil => rfl
  | cons x xs ih =>
    rw [List.foldl_cons, ih _ (fun y hy => h y (List.mem_cons_of_mem _ hy)),
      selectStep_job_of_ne st (h x (List.mem_cons_self _ _))]

theorem selectStep_lastRunning_of_ne {name : String} (st : Selection) {j : Job}
    (h : j.Status ≠ "running") : (selectStep name st j).lastRunning = st.lastRunning := by
  unfold selectStep
  simp only [h, if_false]
  split_ifs <;> rfl

theorem selectStep_lastRunning_of_eq {name : String} (st : Selection) {j : Job}
    (h : j.Status = "running") : (selectStep name st j).lastRunning = some j := by
  unfold selectStep
  simp only [h, if_true]
  split_ifs <;> rfl

theorem foldl_selectStep_lastRunning_of_ne {name : String} (l : List Job) (st : Selection)
    (h : ∀ x ∈ l, x.Status ≠ "running") :
    (l.foldl (selectStep name) st).lastRunning = st.lastRunning := by
  induction l generalizing st with
  | nil => rfl
  | cons x xs ih =>
    rw [List.foldl_cons, ih _ (fun y hy => h y (List.mem_cons_of_mem _ hy)),
      selectStep_lastRunning_of_ne st (h x (List.mem_cons_self _ _))]

theorem selectStep_firstPending_of_ne {name : String} (st : Selection) {j : Job}
    (h : j.Status ≠ "pending") : (selectStep name st j).firstPending = st.firstPending := by
  unfold selectStep
  simp only [h, false_and, if_false]
  split_ifs <;> rfl

theorem selectStep_firstPending_of_some {name : String} (st : Selection) (j : Job) {p : Job}
    (h : st.firstPending = some p) : (selectStep name st j).firstPending = some p := by
  unfold selectStep
  split_ifs <;> simp_all

theorem selectStep_firstPending_of_eq {name : String} (st : Selection) {j : Job}
    (h : j.Status = "pending") (hn : st.firstPending = none) :
    (selectStep name st j).firstPending = some j := by
  unfold selectStep
  split_ifs <;> simp_all

theorem foldl_selectStep_firstPending_of_ne {name : String} (l : List Job) (st : Selection)
    (h : ∀ x ∈ l, x.Status ≠ "pending") :
    (l.foldl (selectStep name) st).firstPending = st.firstPending := by
  induction l generalizing st with
  | nil => rfl
  | cons x xs ih =>
    rw [List.foldl_cons, ih _ (fun y hy => h y (List.mem_cons_of_mem _ hy)),
      selectStep_firstPending_of_ne st (h x (List.mem_cons_self _ _))]

theorem foldl_selectStep_firstPending_of_some {name : String} (l : List Job) (st : Selection)
    {p : Job} (h : st.firstPending = some p) :
    (l.foldl (selectStep name) st).firstPending = some p := by
  induction l generalizing st with
  | nil => exact h
  | cons x xs ih =>
    rw [List.foldl_cons]
    exact ih _ (selectStep_firstPending_of_some st x h)

/-- C1: when some job has the target name, the job selected is the last job of the
list with that name (the job `j` with no job of that name after it), whatever the
statuses in the list are. -/
theorem selectJob_last_name_match (pre post : List Job) (j : Job) (name : String)
    (hj : j.Name = name) (hpost : ∀ x ∈ post, x.Name ≠ name) :
    selectJob (pre ++ j :: post) name = .ok j := by
  have h : ((pre ++ j :: post).foldl (selectStep name) ⟨none, none, none⟩).job = some j := by
    rw [List.foldl_append, List.foldl_cons, foldl_selectStep_job_of_ne post _ hpost,
      selectStep_job_of_eq _ hj]
  simp only [selectJob, h]
  simp

/-- C1, the two witnesses of the spec: two jobs named "test" at positions 2 and 5, and
the end-to-end list with target "build". -/
theorem selectJob_last_name_match_witness :
    selectJob ([⟨1, "a", "success", some 1⟩, ⟨2, "b", "running", some 2⟩] ++
        (⟨3, "test", "failed", some 3⟩ : Job) ::
          [⟨4, "c", "pending", some 4⟩, ⟨5, "d", "success", some 5⟩] ++
        (⟨6, "test", "success", some 6⟩ : Job) :: [⟨7, "e", "running", some 7⟩]) "test"
      = .ok ⟨6, "test", "success", some 6⟩ ∧
    selectJob ([⟨1, "build", "success", some 1⟩] ++
        (⟨2, "build", "failed", some 3⟩ : Job) :: [⟨3, "deploy", "running", some 2⟩]) "build"
      = .ok ⟨2, "build", "failed", some 3⟩ :=
  ⟨by
    have h := selectJob_last_name_match
      ([⟨1, "a", "success", some 1⟩, ⟨2, "b", "running", some 2⟩] ++
        (⟨3, "test", "failed", some 3⟩ : Job) ::
          [⟨4, "c", "pending", some 4⟩, ⟨5, "d", "success", some 5⟩])
      [⟨7, "e", "running", some 7⟩] ⟨6, "test", "success", some 6⟩ "test" rfl (by decide)
    simpa using h,
   selectJob_last_name_match [⟨1, "build", "success", some 1⟩]
      [⟨3, "deploy", "running", some 2⟩] ⟨2, "build", "failed", some 3⟩ "build" rfl (by decide)⟩

/-- C2: when no job has the target name, the job selected is the last running job if
there is one; otherwise the first pending job if there is one; otherwise the last job
of the list. -/
theorem selectJob_fallback_order (jobs : List Job) (name : String)
    (hname : ∀ x ∈ jobs, x.Name ≠ name) :
    (∀ pre post j, jobs = pre ++ j :: post → j.Status = "running" →
        (∀ x ∈ post, x.Status ≠ "running") → selectJob jobs name = .ok j) ∧
    (∀ pre post j, jobs = pre ++ j :: post → (∀ x ∈ jobs, x.Status ≠ "running") →
        j.Status = "pending" → (∀ x ∈ pre, x.Status ≠ "pending") →
        selectJob jobs name = .ok j) ∧
    (∀ pre j, jobs = pre ++ [j] → (∀ x ∈ jobs, x.Status ≠ "running") →
        (∀ x ∈ jobs, x.Status ≠ "pending") → selectJob jobs name = .ok j) := by
  have hjob : (jobs.foldl (selectStep name) ⟨none, none, none⟩).job = none :=
    foldl_selectStep_job_of_ne jobs _ hname
  refine ⟨?_, ?_, ?_⟩
  · intro pre post j hjobs hrun hpost
    have h : (jobs.foldl (selectStep name) ⟨none, none, none⟩).lastRunning = some j := by
      rw [hjobs, List.foldl_append, List.foldl_cons,
        foldl_selectStep_lastRunning_of_ne post _ hpost, selectStep_lastRunning_of_eq _ hrun]
    simp only [selectJob, hjob, h]
    simp
  · intro pre post j hjobs hnorun hpend hpre
    have h1 : (jobs.foldl (selectStep name) ⟨none, none, none⟩).lastRunning = none :=
      foldl_selectStep_lastRunning_of_ne jobs _ hnorun
    have h2 : (jobs.foldl (selectStep name) ⟨none, none, none⟩).firstPending = some j := by
      rw [hjobs, List.foldl_append, List.foldl_cons]
      apply foldl_selectStep_firstPending_of_some
      apply selectStep_firstPending_of_eq _ hpend
      rw [foldl_selectStep_firstPending_of_ne pre _ hpre]
    simp only [selectJob, hjob, h1, h2]
    simp
  · intro pre j hjobs hnorun hnopend
    have h1 : (jobs.foldl (selectStep name) ⟨none, none, none⟩).lastRunning = none :=
      foldl_selectStep_lastRunning_of_ne jobs _ hnorun
    have h2 : (jobs.foldl (selectStep name) ⟨none, none, none⟩).firstPending = none :=
      foldl_selectStep_firstPending_of_ne jobs _ hnopend
    have h3 : jobs[jobs.length - 1]? = some j := by
      subst hjobs
      simp
    simp only [selectJob, hjob, h1, h2, h3]
    simp

/-- C2, the witness of the spec: `[a success, b running, c pending]` with target "z"
gives the running job `b`, not the pending job `c`. -/
theorem selectJob_fallback_order_witness :
    selectJob [⟨1, "a", "success", some 1⟩, ⟨2, "b", "running", some 2⟩,
        ⟨3, "c", "pending", some 3⟩] "z" = .ok ⟨2, "b", "running", some 2⟩ :=
  (selectJob_fallback_order [⟨1, "a", "success", some 1⟩, ⟨2, "b", "running", some 2⟩,
        ⟨3, "c", "pending", some 3⟩] "z" (by decide)).1
    [⟨1, "a", "success", some 1⟩] [⟨3, "c", "pending", some 3⟩] ⟨2, "b", "running", some 2⟩
    rfl rfl (by decide)

/-! ## `PlayOrRetryJobs` -/

/-- C3: `PlayOrRetryJobs` is a three-way dispatch on the status string.  For "pending"
and "running" it returns no job and no error and sends no request; for "manual" it
sends exactly one play request for the job and returns its job, or no job and its
error; for every other status it sends exactly one retry request for the job and
returns its job, or no job and its error. -/
theorem PlayOrRetryJobs_dispatch (env : Env) (client : Option Client) (repo : String)
    (jobID : Int) (status : String) :
    (status = "pending" ∨ status = "running" →
      PlayOrRetryJobs env client repo jobID status = ((none, none), [])) ∧
    (status = "manual" →
      PlayOrRetryJobs env client repo jobID status =
        (match (orLab env client).PlayJob repo jobID with
          | .ok j => (some j, none)
          | .error err => (none, some err),
         [Request.PlayJob repo jobID])) ∧
    (status ≠ "pending" → status ≠ "running" → status ≠ "manual" →
      PlayOrRetryJobs env client repo jobID status =
        (match (orLab env client).RetryJob repo jobID with
          | .ok j => (some j, none)
          | .error err => (none, some err),
         [Request.RetryJob repo jobID])) := by
  refine ⟨?_, ?_, ?_⟩
  · intro h
    unfold PlayOrRetryJobs
    simp [h]
  · intro h
    subst h
    unfold PlayOrRetryJobs PlayPipelineJob
    simp only [orLab]
    cases hp : Client.PlayJob (orLab env client) repo jobID <;> simp_all [orLab]
  · intro h1 h2 h3
    unfold PlayOrRetryJobs RetryPipelineJob
    simp only [orLab]
    cases hp : Client.RetryJob (orLab env client) repo jobID <;> simp_all [orLab]

/-- C3 at a concrete transport: "manual" plays the job, "failed" and an unknown status
retry it, "running" does nothing. -/
theorem PlayOrRetryJobs_dispatch_witness :
    PlayOrRetryJobs (stubEnv (stubClient [] [])) none "group/project" 42 "manual" =
      ((some ⟨42, "job", "pending", some 0⟩, none), [Request.PlayJob "group/project" 42]) ∧
    PlayOrRetryJobs (stubEnv (stubClient [] [])) none "group/project" 42 "failed" =
      ((some ⟨43, "job", "pending", some 0⟩, none), [Request.RetryJob "group/project" 42]) ∧
    PlayOrRetryJobs (stubEnv (stubClient [] [])) none "group/project" 42 "" =
      ((some ⟨43, "job", "pending", some 0⟩, none), [Request.RetryJob "group/project" 42]) ∧
    PlayOrRetryJobs (stubEnv (stubClient [] [])) none "group/project" 42 "running" =
      ((none, none), []) :=
  ⟨(PlayOrRetryJobs_dispatch (stubEnv (stubClient [] [])) none "group/project" 42 "manual").2.1
      rfl,
   (PlayOrRetryJobs_dispatch (stubEnv (stubClient [] [])) none "group/project" 42 "failed").2.2
      (by decide) (by decide) (by decide),
   (PlayOrRetryJobs_dispatch (stubEnv (stubClient [] [])) none "group/project" 42 "").2.2
      (by decide) (by decide) (by decide),
   (PlayOrRetryJobs_dispatch (stubEnv (stubClient [] [])) none "group/project" 42 "running").1
      (Or.inr rfl)⟩

/-! ## The job orderer: `sort.Sort(JobSort{Jobs: jobsList})` -/

theorem ts_eq_of_getElem? {s : JobSort} {i : Nat} {x : Job} {t : Time}
    (hx : s.Jobs[i]? = some x) (ht : x.CreatedAt = some t) : ts s i = t := by
  unfold ts
  rw [hx]
  simp [ht]

/-- C4: for every job list in which each job has a creation timestamp, the ordering
step returns a list (it neither panics nor runs for ever), holding the same jobs, and
for any two positions `i < j` of the output the creation time at `i` is not after the
creation time at `j`. -/
theorem Sort_nondecreasing (jobs : List Job) (ht : ∀ j ∈ jobs, j.CreatedAt ≠ none) :
    ∃ out, sort.Sort ⟨jobs⟩ = .ok out ∧ out.Jobs.Perm jobs ∧
      ∀ (i j : Nat) (x y : Job) (t u : Time), i < j → out.Jobs[i]? = some x → out.Jobs[j]? = some y →
        x.CreatedAt = some t → y.CreatedAt = some u → Time.Before u t = false := by
  obtain ⟨d, e, r, s⟩ := Sort_spec ⟨jobs⟩ ht
  refine ⟨d, e, r.1, ?_⟩
  intro i j x y t u hij hx hy hxt hyu
  have hj : j < d.Jobs.length := (List.getElem?_eq_some.1 hy).1
  have hlen : d.Jobs.length = jobs.length := r.length_eq
  have h := s i j (Nat.zero_le _) (le_of_lt hij) (by rw [← hlen]; exact hj)
  rw [ts_eq_of_getElem? hx hxt, ts_eq_of_getElem? hy hyu] at h
  simp only [Time.Before, decide_eq_false_iff_not, not_lt]
  exact h

/-- C4 at a concrete list: three jobs delivered newest first. -/
theorem Sort_nondecreasing_witness :
    ∃ out, sort.Sort ⟨[⟨3, "deploy", "running", some 30⟩, ⟨2, "test", "success", some 20⟩,
        ⟨1, "build", "success", some 10⟩]⟩ = .ok out ∧
      out.Jobs.Perm [⟨3, "deploy", "running", some 30⟩, ⟨2, "test", "success", some 20⟩,
        ⟨1, "build", "success", some 10⟩] ∧
      ∀ (i j : Nat) (x y : Job) (t u : Time), i < j → out.Jobs[i]? = some x → out.Jobs[j]? = some y →
        x.CreatedAt = some t → y.CreatedAt = some u → Time.Before u t = false :=
  Sort_nondecreasing [⟨3, "deploy", "running", some 30⟩, ⟨2, "test", "success", some 20⟩,
    ⟨1, "build", "success", some 10⟩] (by decide)

/-- C5 as stated fails: on `tiedJobs` (thirteen jobs, the first twelve created at the
same instant 1) the ordering step returns the twelve tied jobs in the order 6, 2, 3, 4,
5, 0, 7, 8, 9, 10, 11, 1, not in their input order 0, ..., 11: the job 6 now precedes
the job 0. -/
theorem Sort_unstable_at_13 :
    sort.Sort ⟨tiedJobs⟩ =
      .ok ⟨[⟨12, "j", "success", some 0⟩, ⟨6, "j", "success", some 1⟩,
        ⟨2, "j", "success", some 1⟩, ⟨3, "j", "success", some 1⟩,
        ⟨4, "j", "success", some 1⟩, ⟨5, "j", "success", some 1⟩,
        ⟨0, "j", "success", some 1⟩, ⟨7, "j", "success", some 1⟩,
        ⟨8, "j", "success", some 1⟩, ⟨9, "j", "success", some 1⟩,
        ⟨10, "j", "success", some 1⟩, ⟨11, "j", "success", some 1⟩,
        ⟨1, "j", "success", some 1⟩]⟩ ∧
    tiedJobs.length = 13 ∧
    ¬ ∀ out, sort.Sort ⟨tiedJobs⟩ = .ok out →
      ∀ t : Time, out.Jobs.filter (fun j => decide (j.CreatedAt = some t)) =
        tiedJobs.filter (fun j => decide (j.CreatedAt = some t)) := by
  have hrun : sort.Sort ⟨tiedJobs⟩ =
      .ok ⟨[⟨12, "j", "success", some 0⟩, ⟨6, "j", "success", some 1⟩,
        ⟨2, "j", "success", some 1⟩, ⟨3, "j", "success", some 1⟩,
        ⟨4, "j", "success", some 1⟩, ⟨5, "j", "success", some 1⟩,
        ⟨0, "j", "success", some 1⟩, ⟨7, "j", "success", some 1⟩,
        ⟨8, "j", "success", some 1⟩, ⟨9, "j", "success", some 1⟩,
        ⟨10, "j", "success", some 1⟩, ⟨11, "j", "success", some 1⟩,
        ⟨1, "j", "success", some 1⟩]⟩ := by decide
  refine ⟨hrun, rfl, fun h => ?_⟩
  have h1 := h _ hrun 1
  revert h1
  decide

/-- C5 as amended: for every job list of at most twelve jobs, each with a creation
timestamp, the ordering step returns the same jobs with the jobs of equal creation
time in their input order: for every instant, the jobs created at that instant are
listed in the output in the order they have in the input. -/
theorem Sort_stable_upto_12 (jobs : List Job) (ht : ∀ j ∈ jobs, j.CreatedAt ≠ none)
    (h12 : jobs.length ≤ 12) :
    ∃ out, sort.Sort ⟨jobs⟩ = .ok out ∧ out.Jobs.Perm jobs ∧
      ∀ t : Time, out.Jobs.filter (fun j => decide (j.CreatedAt = some t)) =
        jobs.filter (fun j => decide (j.CreatedAt = some t)) := by
  obtain ⟨d, e, r, _⟩ := Sort_spec ⟨jobs⟩ ht
  obtain ⟨d', e', st⟩ := Sort_sameTies ⟨jobs⟩ ht h12
  rw [e] at e'
  cases e'
  exact ⟨d, e, r.1, st⟩

/-- C5 as amended, at a concrete list: two retried jobs share the instant 5. -/
theorem Sort_stable_upto_12_witness :
    ∃ out, sort.Sort ⟨[⟨4, "test", "failed", some 5⟩, ⟨3, "test", "success", some 5⟩,
        ⟨2, "build", "success", some 1⟩]⟩ = .ok out ∧
      out.Jobs.Perm [⟨4, "test", "failed", some 5⟩, ⟨3, "test", "success", some 5⟩,
        ⟨2, "build", "success", some 1⟩] ∧
      ∀ t : Time, out.Jobs.filter (fun j => decide (j.CreatedAt = some t)) =
        [⟨4, "test", "failed", some 5⟩, ⟨3, "test", "success", some 5⟩,
          ⟨2, "build", "success", some 1⟩].filter (fun j => decide (j.CreatedAt = some t)) :=
  Sort_stable_upto_12 [⟨4, "test", "failed", some 5⟩, ⟨3, "test", "success", some 5⟩,
    ⟨2, "build", "success", some 1⟩] (by decide) (by decide)

/-- C10: for every job list in which each job has a creation timestamp, the ordering
step returns a list, and applying the ordering step to that list returns the very
same list. -/
theorem Sort_idempotent (jobs : List Job) (ht : ∀ j ∈ jobs, j.CreatedAt ≠ none) :
    ∃ out, sort.Sort ⟨jobs⟩ = .ok out ∧ sort.Sort out = .ok out := by
  obtain ⟨d, e, r, s⟩ := Sort_spec ⟨jobs⟩ ht
  refine ⟨d, e, Sort_sorted d (r.timed ht) ?_⟩
  rw [r.length_eq]
  exact s

/-- C10 at a concrete list with a tie. -/
theorem Sort_idempotent_witness :
    ∃ out, sort.Sort ⟨[⟨4, "test", "failed", some 5⟩, ⟨3, "test", "success", some 5⟩,
        ⟨2, "build", "success", some 1⟩]⟩ = .ok out ∧ sort.Sort out = .ok out :=
  Sort_idempotent [⟨4, "test", "failed", some 5⟩, ⟨3, "test", "success", some 5⟩,
    ⟨2, "build", "success", some 1⟩] (by decide)

/-! ## `PipelineJobsWithSha`, `GetPipelineFromBranch`, `PipelineJobTraceWithSha` -/

theorem pageRequests_length (pid : String) (target : Int) (k n : Nat) :
    (pageRequests pid target k n).length = n := by
  simp [pageRequests]

theorem orLab_some (env : Env) (c : Client) : orLab env (some c) = c := rfl

theorem PipelineJobsWithSha_unfold (fuel : Nat) (env : Env) (client : Option Client)
    (pid sha : String) :
    PipelineJobsWithSha fuel env client pid sha =
      match (orLab env client).ListProjectPipelines pid
          ⟨0, env.DefaultListLimit, none, some sha, none⟩ with
      | .error err => .ok (([], some err),
          [Request.ListProjectPipelines pid ⟨0, env.DefaultListLimit, none, some sha, none⟩])
      | .ok [] => .ok (([], none),
          [Request.ListProjectPipelines pid ⟨0, env.DefaultListLimit, none, some sha, none⟩])
      | .ok (p :: _) =>
        (PipelineJobsWithShaLoop (orLab env client) pid p.ID fuel ⟨0, 500⟩ []
          [Request.ListProjectPipelines pid
            ⟨0, env.DefaultListLimit, none, some sha, none⟩]).bind fun r =>
          match r with
          | (.error err, tr1) => .ok (([], some err), tr1)
          | (.ok jobsList, tr1) =>
            (sort.Sort ⟨jobsList⟩).bind fun s => .ok ((s.Jobs, none), tr1) := by
  unfold PipelineJobsWithSha GetPipelines
  simp only [orLab_some, if_true]
  cases (orLab env client).ListProjectPipelines pid
      ⟨0, env.DefaultListLimit, none, some sha, none⟩ with
  | error err => rfl
  | ok pipes =>
    cases pipes with
    | nil => rfl
    | cons p rest => rfl

theorem PipelineJobsWithSha_trace (fuel : Nat) (env : Env) (client : Option Client)
    (pid sha : String) (r : List Job × Option Error) (tr : List Request)
    (h : PipelineJobsWithSha fuel env client pid sha = .ok (r, tr)) :
    ∀ q ∈ tr, (∃ p o, q = Request.ListProjectPipelines p o) ∨
      ∃ p t o, q = Request.ListPipelineJobs p t o := by
  rw [PipelineJobsWithSha_unfold] at h
  cases hc : (orLab env client).ListProjectPipelines pid
      ⟨0, env.DefaultListLimit, none, some sha, none⟩ with
  | error err =>
    rw [hc] at h
    simp only [Outcome.ok.injEq, Prod.mk.injEq] at h
    obtain ⟨_, rfl⟩ := h
    intro q hq
    exact Or.inl ⟨_, _, by simpa using hq⟩
  | ok pipes =>
    rw [hc] at h
    cases pipes with
    | nil =>
      simp only [Outcome.ok.injEq, Prod.mk.injEq] at h
      obtain ⟨_, rfl⟩ := h
      intro q hq
      exact Or.inl ⟨_, _, by simpa using hq⟩
    | cons p rest =>
      dsimp only at h
      generalize htr0 : [Request.ListProjectPipelines pid
        ⟨0, env.DefaultListLimit, none, some sha, none⟩] = tr0 at h
      cases hl : PipelineJobsWithShaLoop (orLab env client) pid p.ID fuel ⟨0, 500⟩ [] tr0 with
      | panic => rw [hl] at h; simp at h
      | outOfFuel => rw [hl] at h; simp at h
      | ok v =>
        obtain ⟨res, tr1⟩ := v
        rw [hl, Outcome.bind_ok] at h
        have htr := PipelineJobsWithShaLoop_trace _ _ _ _ _ _ _ _ _ hl
        have key : tr = tr1 := by
          cases res with
          | error err =>
            simp only [Outcome.ok.injEq, Prod.mk.injEq] at h
            exact h.2.symm
          | ok jobsList =>
            dsimp only at h
            cases hs : sort.Sort ⟨jobsList⟩ with
            | panic => rw [hs] at h; simp at h
            | outOfFuel => rw [hs] at h; simp at h
            | ok s =>
              rw [hs, Outcome.bind_ok] at h
              simp only [Outcome.ok.injEq, Prod.mk.injEq] at h
              exact h.2.symm
        subst key
        subst htr0
        intro q hq
        rcases htr q hq with h1 | ⟨o, h1⟩
        · exact Or.inl ⟨_, _, by simpa using h1⟩
        · exact Or.inr ⟨_, _, o, h1⟩

/-- C6: when the transport serves the `T ≥ 1` pages of a pipeline as described (the
page of index `k` from 0 is page `k + 1`; the first request names no page), the page
loop of `PipelineJobsWithSha` sends exactly `T` requests, one per page in order, each
with page size 500, and gathers the concatenation of the pages in the order received;
and when every job has a creation timestamp, `PipelineJobsWithSha` returns, without
error, a list holding every gathered job exactly once. -/
theorem PipelineJobsWithSha_all_pages (env : Env) (client : Option Client) (pid sha : String)
    (pl : PipelineInfo) (rest : List PipelineInfo) (pages : List (List Job)) (fuel : Nat)
    (hpipes : (orLab env client).ListProjectPipelines pid
      ⟨0, env.DefaultListLimit, none, some sha, none⟩ = .ok (pl :: rest))
    (hT : 1 ≤ pages.length)
    (hresp : ∀ k (hk : k < pages.length), ∃ next : Int,
      (orLab env client).ListPipelineJobs pid pl.ID ⟨pageParam k, 500⟩ =
        .ok (pages[k], ⟨next, (k : Int) + 1, pages.length⟩) ∧
      (k + 1 < pages.length → next = (k : Int) + 2))
    (hfuel : pages.length ≤ fuel) :
    PipelineJobsWithShaLoop (orLab env client) pid pl.ID fuel ⟨0, 500⟩ [] [] =
      .ok (.ok pages.flatten, pageRequests pid pl.ID 0 pages.length) ∧
    (pageRequests pid pl.ID 0 pages.length).length = pages.length ∧
    ((∀ j ∈ pages.flatten, j.CreatedAt ≠ none) →
      ∃ out, PipelineJobsWithSha fuel env client pid sha =
          .ok ((out, none),
            Request.ListProjectPipelines pid ⟨0, env.DefaultListLimit, none, some sha, none⟩ ::
              pageRequests pid pl.ID 0 pages.length) ∧
        out.Perm pages.flatten) := by
  have hloop := fun tr => PipelineJobsWithShaLoop_pages (orLab env client) pid pl.ID pages
    hresp pages.length 0 fuel [] tr (by omega) hT hfuel
  refine ⟨?_, pageRequests_length _ _ _ _, ?_⟩
  · have := hloop []
    simpa [pageParam] using this
  · intro ht
    obtain ⟨d, e, r, _⟩ := Sort_spec ⟨pages.flatten⟩ ht
    refine ⟨d.Jobs, ?_, r.1⟩
    have h1 := hloop
      [Request.ListProjectPipelines pid ⟨0, env.DefaultListLimit, none, some sha, none⟩]
    simp only [pageParam, if_true, List.drop_zero, List.nil_append] at h1
    rw [PipelineJobsWithSha_unfold, hpipes]
    dsimp only
    rw [h1, Outcome.bind_ok]
    dsimp only
    rw [e, Outcome.bind_ok]
    rfl

/-- C6, the scenario of the spec: pages of 500, 500 and 10 jobs give exactly 1010
jobs, fetched in three requests. -/
theorem PipelineJobsWithSha_all_pages_witness :
    ∃ out, PipelineJobsWithSha 3
        (stubEnv (stubClient [⟨7⟩] [stubPage 0 500, stubPage 500 500, stubPage 1000 10])) none
        "group/project" "abc123" =
        .ok ((out, none),
          [Request.ListProjectPipelines "group/project" ⟨0, 30, none, some "abc123", none⟩,
           Request.ListPipelineJobs "group/project" 7 ⟨0, 500⟩,
           Request.ListPipelineJobs "group/project" 7 ⟨2, 500⟩,
           Request.ListPipelineJobs "group/project" 7 ⟨3, 500⟩]) ∧
      out.Perm (stubPage 0 500 ++ stubPage 500 500 ++ stubPage 1000 10) ∧
      out.length = 1010 := by
  have h := PipelineJobsWithSha_all_pages
    (stubEnv (stubClient [⟨7⟩] [stubPage 0 500, stubPage 500 500, stubPage 1000 10])) none
    "group/project" "abc123" ⟨7⟩ [] [stubPage 0 500, stubPage 500 500, stubPage 1000 10] 3
    rfl (by decide)
    (by
      intro k hk
      have hk3 : k < 3 := hk
      interval_cases k
      · exact ⟨2, by simp [stubEnv, stubClient, orLab, pageParam, servedPage], fun _ => rfl⟩
      · exact ⟨3, by simp [stubEnv, stubClient, orLab, pageParam, servedPage], fun _ => rfl⟩
      · exact ⟨0, by simp [stubEnv, stubClient, orLab, pageParam, servedPage],
          fun h => absurd h (by decide)⟩)
    (le_refl _)
  obtain ⟨out, e, p⟩ := h.2.2 (by
    intro j hj
    simp only [List.flatten_cons, List.flatten_nil, List.append_nil, List.mem_append,
      stubPage, List.mem_map] at hj
    rcases hj with ⟨i, _, rfl⟩ | ⟨i, _, rfl⟩ | ⟨i, _, rfl⟩ <;> simp)
  have p' : out.Perm (stubPage 0 500 ++ stubPage 500 500 ++ stubPage 1000 10) := by
    simpa using p
  refine ⟨out, ?_, p', ?_⟩
  · rw [e]
    rfl
  · rw [p'.length_eq]
    simp [stubPage]

/-- C7 fails on the code at `T = 0`: against a transport that serves a pipeline with
no jobs with `CurrentPage = 1`, `TotalPages = 0` and `NextPage = 0`, the page loop of
`PipelineJobsWithSha` never stops, whatever the number of passes allowed. -/
theorem PipelineJobsWithSha_zero_pages_never_returns (fuel : Nat) :
    PipelineJobsWithSha fuel (stubEnv (stubClient [⟨7⟩] [])) none "group/project" "abc123" =
      .outOfFuel := by
  rw [PipelineJobsWithSha_unfold]
  show (PipelineJobsWithShaLoop (stubClient [⟨7⟩] []) "group/project" 7 fuel ⟨0, 500⟩ []
    [Request.ListProjectPipelines "group/project" ⟨0, 30, none, some "abc123", none⟩]).bind _ = _
  rw [PipelineJobsWithShaLoop_zero_pages (stubClient [⟨7⟩] []) "group/project" 7 [] rfl]
  rfl

/-- C8 as stated fails for the lookup by commit SHA: when the list of pipelines comes
back empty, `PipelineJobsWithSha` returns no jobs and no error, and
`PipelineJobTraceWithSha` returns no reader, no job and no error. -/
theorem PipelineJobsWithSha_no_pipeline_no_error :
    (stubClient [] []).ListProjectPipelines "group/project"
        ⟨0, 30, none, some "abc123", none⟩ = .ok [] ∧
    PipelineJobsWithSha 1 (stubEnv (stubClient [] [])) none "group/project" "abc123" =
      .ok (([], none),
        [Request.ListProjectPipelines "group/project" ⟨0, 30, none, some "abc123", none⟩]) ∧
    PipelineJobTraceWithSha 1 (stubEnv (stubClient [] [])) none "group/project" "abc123"
        "build" =
      .ok ((none, none, none),
        [Request.ListProjectPipelines "group/project" ⟨0, 30, none, some "abc123", none⟩]) :=
  ⟨rfl, by decide, by decide⟩

/-- C8 as amended: when the list-pipelines request succeeds with an empty list, the
lookup by branch ref returns a locally made error whose message is
"No pipelines running or available on " followed by the ref and "branch", and the
lookup by commit SHA returns no jobs and no error (and `PipelineJobTraceWithSha` no
reader, no job and no error); neither requests any job nor any log: the list-pipelines
request is the only one sent. -/
theorem empty_pipeline_list (env : Env) (client : Option Client) (ref repo pid sha name : String)
    (fuel : Nat) :
    (∀ ref1, (if ref = "" then env.CurrentBranch else .ok ref) = .ok ref1 →
      (orLab env client).ListProjectPipelines repo ⟨1, 1, some ref1, none, some "desc"⟩ =
        .ok [] →
      GetPipelineFromBranch env client ref repo =
        (([], some (errorsNew ("No pipelines running or available on " ++ ref1 ++ "branch"))),
          [Request.ListProjectPipelines repo ⟨1, 1, some ref1, none, some "desc"⟩])) ∧
    ((orLab env client).ListProjectPipelines pid
        ⟨0, env.DefaultListLimit, none, some sha, none⟩ = .ok [] →
      PipelineJobsWithSha fuel env client pid sha =
        .ok (([], none),
          [Request.ListProjectPipelines pid ⟨0, env.DefaultListLimit, none, some sha, none⟩]) ∧
      PipelineJobTraceWithSha fuel env client pid sha name =
        .ok ((none, none, none),
          [Request.ListProjectPipelines pid
            ⟨0, env.DefaultListLimit, none, some sha, none⟩])) := by
  refine ⟨?_, ?_⟩
  · intro ref1 href hpipes
    unfold GetPipelineFromBranch GetPipelines
    simp only [orLab] at hpipes ⊢
    rw [href]
    simp [hpipes]
  · intro hpipes
    have h1 : ∀ c : Option Client, orLab env c = orLab env client →
        PipelineJobsWithSha fuel env c pid sha =
        .ok (([], none),
          [Request.ListProjectPipelines pid
            ⟨0, env.DefaultListLimit, none, some sha, none⟩]) := by
      intro c hc
      rw [PipelineJobsWithSha_unfold, hc, hpipes]
    refine ⟨h1 client rfl, ?_⟩
    unfold PipelineJobTraceWithSha
    dsimp only
    rw [h1 (some (orLab env client)) rfl, Outcome.bind_ok]
    simp

/-- C8 as amended, at a concrete transport without pipelines, for the ref "main" and
the SHA "abc123". -/
theorem empty_pipeline_list_witness :
    GetPipelineFromBranch (stubEnv (stubClient [] [])) none "main" "group/project" =
      (([], some (errorsNew "No pipelines running or available on mainbranch")),
        [Request.ListProjectPipelines "group/project" ⟨1, 1, some "main", none, some "desc"⟩]) ∧
    PipelineJobsWithSha 1 (stubEnv (stubClient [] [])) none "group/project" "abc123" =
      .ok (([], none),
        [Request.ListProjectPipelines "group/project" ⟨0, 30, none, some "abc123", none⟩]) :=
  ⟨(empty_pipeline_list (stubEnv (stubClient [] [])) none "main" "group/project"
      "group/project" "abc123" "build" 1).1 "main" rfl rfl,
   ((empty_pipeline_list (stubEnv (stubClient [] [])) none "main" "group/project"
      "group/project" "abc123" "build" 1).2 rfl).1⟩

/-- C9: when the job fetch succeeds with an empty job list, `PipelineJobTraceWithSha`
returns no log reader, no job and no error (it does not panic on the empty list), and
sends no request beyond those of the job fetch, none of which fetches a log. -/
theorem PipelineJobTraceWithSha_empty (fuel : Nat) (env : Env) (client : Option Client)
    (pid sha name : String) (tr : List Request)
    (h : PipelineJobsWithSha fuel env (some (orLab env client)) pid sha = .ok (([], none), tr)) :
    PipelineJobTraceWithSha fuel env client pid sha name = .ok ((none, none, none), tr) ∧
    ∀ p i, Request.GetTraceFile p i ∉ tr := by
  refine ⟨?_, ?_⟩
  · unfold PipelineJobTraceWithSha
    dsimp only
    rw [h, Outcome.bind_ok]
    simp
  · intro p i hmem
    rcases PipelineJobsWithSha_trace _ _ _ _ _ _ _ h _ hmem with ⟨_, _, h1⟩ | ⟨_, _, _, h1⟩ <;>
      cases h1

/-- C9 at a concrete transport: a pipeline whose single page of jobs is empty. -/
theorem PipelineJobTraceWithSha_empty_witness :
    PipelineJobTraceWithSha 1 (stubEnv (stubClient [⟨7⟩] [[]])) none "group/project" "abc123"
        "build" =
      .ok ((none, none, none),
        [Request.ListProjectPipelines "group/project" ⟨0, 30, none, some "abc123", none⟩,
         Request.ListPipelineJobs "group/project" 7 ⟨0, 500⟩]) ∧
    ∀ p i, Request.GetTraceFile p i ∉
        [Request.ListProjectPipelines "group/project" ⟨0, 30, none, some "abc123", none⟩,
         Request.ListPipelineJobs "group/project" 7 ⟨0, 500⟩] :=
  PipelineJobTraceWithSha_empty 1 (stubEnv (stubClient [⟨7⟩] [[]])) none "group/project"
    "abc123" "build" _ (by decide)

end Glab
